import Mathlib

/-!
Verification development for the bincode binary serialization engine.

The varint codec (`src/varint/leb128.rs`) and the std-type adapters
(`src/features/impl_std.rs`) are translated directly from the source.
Machine integers are modelled as `Nat` (unsigned) or `Int` (signed), with
`u128`/`i128` arithmetic represented on the 128-bit two's-complement bit
pattern (a `Nat` reduced mod `2 ^ 128`) where overflow matters.  Core
pieces of the engine that are not part of the translated source (the
reader/writer abstraction, the length-budget tracker, the integer
capability implementations) are modelled from the specification and
marked as such in their doc comments.
-/

namespace Bincode

/-- Model of the decode error enumeration.  The source constructs
`DecodeError::Other(&str)` in the varint module, `DecodeError::Io` in the
`IoReader` adapter, `DecodeError::UnexpectedVariant` in the `IpAddr` and
`SocketAddr` adapters; `unexpectedEnd` and `limitExceeded` model the
reader-end and budget errors of the core described in the spec. -/
inductive DecodeError where
  | unexpectedEnd (additional : Nat)
  | ioError (additional : Nat)
  | other (msg : String)
  | limitExceeded
  | unexpectedVariant (typeName : String) (minAllowed maxAllowed found : Nat)
deriving DecidableEq

/-- Model of the encode error enumeration (only the constructor used by
`IoWriter::write` is needed: `EncodeError::Io { inner, index }`). -/
inductive EncodeError where
  | ioError (index : Nat)
deriving DecidableEq

/-- Result of running a varint decoder against a byte list: success with
the decoded value and the remaining input, a decode error, or a Rust
panic (an arithmetic-overflow abort, which is not a returned error). -/
inductive VRes (α : Type) where
  | ok (v : α) (rest : List Nat)
  | fail (e : DecodeError)
  | panicked (msg : String)
deriving DecidableEq

/-- Translation of `leb128_encode_u128` (leb128.rs:3-15): split the value
into 7-bit groups, low first; each iteration takes `byte = val & 0x7F`
(here `val % 128`) and `val >>= 7` (here `val / 128`); every group except
the last carries the continuation bit 0x80 (`byte | 0x80 = byte + 128`
since `byte < 128`). -/
def leb128_encode_u128 (val : Nat) : List Nat :=
  if val / 128 = 0 then [val % 128]
  else (val % 128 + 128) :: leb128_encode_u128 (val / 128)
termination_by val
decreasing_by omega

/-- Translation of `sleb128_encode_i128` (leb128.rs:33-45).  `val & 0x7F`
is `(val % 128).toNat` (Euclidean mod) and the arithmetic shift
`val >>= 7` is `val / 128` (Euclidean division, divisor positive).  The
loop stops when the remaining quantity is fully represented: `val == 0`
with sign bit (bit 6) of the group clear, or `val == -1` with it set. -/
def sleb128_encode_i128 (val : Int) : List Nat :=
  if (val / 128 = 0 ∧ (val % 128).toNat < 64) ∨ (val / 128 = -1 ∧ 64 ≤ (val % 128).toNat) then
    [(val % 128).toNat]
  else ((val % 128).toNat + 128) :: sleb128_encode_i128 (val / 128)
termination_by val.natAbs
decreasing_by
  rename_i hcond
  have hdm := Int.ediv_add_emod val 128
  have h0 := Int.emod_nonneg val (by norm_num : (128 : Int) ≠ 0)
  have h1 := Int.emod_lt_of_pos val (by norm_num : (0 : Int) < 128)
  have hne0 : val ≠ 0 := by
    rintro rfl; simp at hcond
  have hne1 : val ≠ -1 := by
    rintro rfl; revert hcond; decide
  omega

/-- Translation of the loop of `leb128_decode_u128` (leb128.rs:63-79).
Bytes are u8, so a read byte is reduced mod 256; `byte & 0x7F` is
`b % 128`, `byte & 0x80 == 0` is `b < 128`.  The u128 accumulation
`result |= (b & 0x7F) << shift` keeps only the low 128 bits.  After a
continuation byte the shift grows by 7 and `shift >= 128` is rejected
as a decode error. -/
def leb128_decode_u128_loop : List Nat → Nat → Nat → VRes Nat
  | [], _, _ => .fail (.unexpectedEnd 1)
  | b0 :: rest, shift, result =>
    let b := b0 % 256
    let result := result ||| ((b % 128) <<< shift) % 2 ^ 128
    if b < 128 then
      .ok result rest
    else
      let shift := shift + 7
      if 128 ≤ shift then .fail (.other "LEB128 overflow")
      else leb128_decode_u128_loop rest shift result

/-- Translation of `leb128_decode_u128` run against an in-memory input. -/
def leb128_decode_u128_list (l : List Nat) : VRes Nat :=
  leb128_decode_u128_loop l 0 0

/-- Translation of `leb128_decode_u64` (leb128.rs:81-87): decode at full
width, then reject values above `u64::MAX`. -/
def leb128_decode_u64_list (l : List Nat) : VRes Nat :=
  match leb128_decode_u128_list l with
  | .ok val rest => if 2 ^ 64 - 1 < val then .fail (.other "LEB128 overflow u64") else .ok val rest
  | r => r

/-- Translation of `leb128_decode_u32` (leb128.rs:89-95). -/
def leb128_decode_u32_list (l : List Nat) : VRes Nat :=
  match leb128_decode_u128_list l with
  | .ok val rest => if 2 ^ 32 - 1 < val then .fail (.other "LEB128 overflow u32") else .ok val rest
  | r => r

/-- Translation of `leb128_decode_u16` (leb128.rs:97-103). -/
def leb128_decode_u16_list (l : List Nat) : VRes Nat :=
  match leb128_decode_u128_list l with
  | .ok val rest => if 2 ^ 16 - 1 < val then .fail (.other "LEB128 overflow u16") else .ok val rest
  | r => r

/-- Translation of `leb128_decode_usize` (leb128.rs:105-111); the
pointer-sized width is modelled as 64 bits. -/
def leb128_decode_usize_list (l : List Nat) : VRes Nat :=
  match leb128_decode_u128_list l with
  | .ok val rest => if 2 ^ 64 - 1 < val then .fail (.other "LEB128 overflow usize") else .ok val rest
  | r => r

/-- Interpretation of a 128-bit pattern as an `i128` value. -/
def toInt128 (n : Nat) : Int :=
  if n < 2 ^ 127 then (n : Int) else (n : Int) - 2 ^ 128

/-- Translation of the loop of `sleb128_decode_i128` (leb128.rs:117-126),
accumulating the two's-complement bit pattern of the `i128` result.
Unlike the unsigned loop the source has no shift bound, so on a 20th
group the Rust expression `((byte & 0x7F) as i128) << shift` is evaluated
with `shift >= 128`: an arithmetic overflow, i.e. a panic (with overflow
checks off the shift amount is masked instead and the value is silently
mis-accumulated); this is modelled as the `panicked` outcome.  On break
the loop yields the accumulator, the final shift and the last byte. -/
def sleb128_decode_i128_loop : List Nat → Nat → Nat → VRes (Nat × Nat × Nat)
  | [], _, _ => .fail (.unexpectedEnd 1)
  | b0 :: rest, shift, result =>
    let b := b0 % 256
    if 128 ≤ shift then .panicked "attempt to shift left with overflow"
    else
      let result := result ||| ((b % 128) <<< shift) % 2 ^ 128
      let shift := shift + 7
      if b < 128 then .ok (result, shift, b) rest
      else sleb128_decode_i128_loop rest shift result

/-- Translation of `sleb128_decode_i128` (leb128.rs:113-131): after the
loop, if the accumulated shift is below the full width and bit 6 of the
last byte is set (`64 ≤ byte`, the byte being below 128 at the break),
the remaining high-order bits are filled with ones:
`result |= !0 << shift` is, on the bit pattern, `result ||| (2^128 - 2^shift)`. -/
def sleb128_decode_i128_list (l : List Nat) : VRes Int :=
  match sleb128_decode_i128_loop l 0 0 with
  | .ok (result, shift, byte) rest =>
      let result := if shift < 128 ∧ 64 ≤ byte then result ||| (2 ^ 128 - 2 ^ shift) else result
      .ok (toInt128 result) rest
  | .fail e => .fail e
  | .panicked m => .panicked m

/-- Translation of `sleb128_decode_i64` (leb128.rs:133-139). -/
def sleb128_decode_i64_list (l : List Nat) : VRes Int :=
  match sleb128_decode_i128_list l with
  | .ok val rest =>
      if val < -(2 ^ 63) ∨ 2 ^ 63 - 1 < val then .fail (.other "SLEB128 overflow i64")
      else .ok val rest
  | r => r

/-- Translation of `sleb128_decode_i32` (leb128.rs:141-147). -/
def sleb128_decode_i32_list (l : List Nat) : VRes Int :=
  match sleb128_decode_i128_list l with
  | .ok val rest =>
      if val < -(2 ^ 31) ∨ 2 ^ 31 - 1 < val then .fail (.other "SLEB128 overflow i32")
      else .ok val rest
  | r => r

/-- Translation of `sleb128_decode_i16` (leb128.rs:149-155). -/
def sleb128_decode_i16_list (l : List Nat) : VRes Int :=
  match sleb128_decode_i128_list l with
  | .ok val rest =>
      if val < -(2 ^ 15) ∨ 2 ^ 15 - 1 < val then .fail (.other "SLEB128 overflow i16")
      else .ok val rest
  | r => r

/-- Translation of `sleb128_decode_isize` (leb128.rs:157-163); the
pointer-sized width is modelled as 64 bits. -/
def sleb128_decode_isize_list (l : List Nat) : VRes Int :=
  match sleb128_decode_i128_list l with
  | .ok val rest =>
      if val < -(2 ^ 63) ∨ 2 ^ 63 - 1 < val then .fail (.other "SLEB128 overflow isize")
      else .ok val rest
  | r => r

/-! ### Decoding sessions: reader, length budget, trace instrumentation

The decoder core (`DecoderImpl`, `claim_container_read`,
`unclaim_bytes_read`, `decode_slice_len`) is not part of the source
files; it is modelled from the specification (spec sections 4.3 and 4.4).
The state carries the remaining input, the bytes currently reserved by
pending container claims, and an instrumentation trace recording every
budget claim, budget release and container allocation, so that ordering
properties about them can be stated. -/

/-- Instrumentation event: a budget claim, a budget release, or a
container capacity allocation (`with_capacity_and_hasher`). -/
inductive Event where
  | claim (n : Nat)
  | unclaim (n : Nat)
  | alloc (n : Nat)
deriving DecidableEq

/-- Modelled from the spec: state of a decoding session over an
in-memory input; `reserved` counts bytes reserved by pending container
claims (the budget of not-yet-reserved input is
`input.length - reserved`). -/
structure DecState where
  input : List Nat
  reserved : Nat
  trace : List Event
deriving DecidableEq

/-- Result of a stateful decode step: success, decode error, or panic. -/
inductive DRes (α : Type) where
  | ok (a : α) (s : DecState)
  | err (e : DecodeError) (s : DecState)
  | panicked (msg : String) (s : DecState)
deriving DecidableEq

/-- A stateful decoder. -/
def Dec (α : Type) : Type := DecState → DRes α

/-- Sequencing of stateful decoders (fail-fast error propagation). -/
def dbind {α β : Type} (x : Dec α) (f : α → Dec β) : Dec β := fun s =>
  match x s with
  | .ok a s₁ => f a s₁
  | .err e s₁ => .err e s₁
  | .panicked m s₁ => .panicked m s₁

/-- Initial session state for a given input. -/
def initState (l : List Nat) : DecState := ⟨l, 0, []⟩

/-- Modelled from the spec: `Reader::read` of one byte from the session
source (bytes are u8). -/
def readByteD : Dec Nat := fun s =>
  match s.input with
  | [] => .err (.unexpectedEnd 1) s
  | b :: rest => .ok (b % 256) { s with input := rest }

/-- Modelled from the spec: `Reader::read` of `n` raw bytes from the
session source into a fixed-size buffer. -/
def readBytesD (n : Nat) : Dec (List Nat) := fun s =>
  if n ≤ s.input.length then
    .ok (s.input.take n) { s with input := s.input.drop n }
  else .err (.unexpectedEnd n) s

/-- Modelled from the spec (section 4.3): `claim_bytes_read` — a claim
that would exceed the presently known decodable input
(`input.length - reserved`) is rejected with a limit-exceeded error
before anything is allocated; otherwise the bytes are reserved. -/
def claimBytes (n : Nat) : Dec Unit := fun s =>
  if s.input.length < s.reserved + n then .err .limitExceeded s
  else .ok () { s with reserved := s.reserved + n, trace := s.trace ++ [.claim n] }

/-- State effect of releasing `n` reserved bytes back to the budget. -/
def unclaimState (n : Nat) (s : DecState) : DecState :=
  { s with reserved := s.reserved - n, trace := s.trace ++ [.unclaim n] }

/-- Modelled from the spec (section 4.3): `unclaim_bytes_read` — one
element's portion of the initial estimate is released back to the budget
just before that element is decoded. -/
def unclaimBytes (n : Nat) : Dec Unit := fun s =>
  .ok () (unclaimState n s)

/-- Instrumentation marker for `with_capacity_and_hasher n`: records
that backing storage for `n` elements was allocated. -/
def allocCapacity (n : Nat) : Dec Unit := fun s =>
  .ok () { s with trace := s.trace ++ [.alloc n] }

/-- Lift a varint list decoder into a stateful decoder. -/
def liftVarint {α : Type} (f : List Nat → VRes α) : Dec α := fun s =>
  match f s.input with
  | .ok v rest => .ok v { s with input := rest }
  | .fail e => .err e s
  | .panicked m => .panicked m s

/-- Modelled from the spec (section 6): `decode_slice_len` — every
length-prefixed container is preceded by its element count encoded as an
unsigned varint (pointer-sized, modelled as 64 bits). -/
def decode_slice_len : Dec Nat := liftVarint leb128_decode_usize_list

/-- Modelled from the spec (section 6): `encode_slice_len` writes the
element count as an unsigned varint. -/
def encode_slice_len (n : Nat) : List Nat := leb128_encode_u128 n

/-- Modelled from the spec (section 6): the configured integer encoding,
variable-length by default. -/
inductive IntEncoding where
  | varint
  | fixed
deriving DecidableEq

/-- Modelled from the spec (section 6): `u32::encode` under the
configured integer encoding — LEB128 when variable-length (the default),
4 little-endian bytes when fixed-width. -/
def u32_encode (cfg : IntEncoding) (v : Nat) : List Nat :=
  match cfg with
  | .varint => leb128_encode_u128 (v % 2 ^ 32)
  | .fixed => [v % 256, v / 256 % 256, v / 65536 % 256, v / 16777216 % 256]

/-- Modelled from the spec (section 6): `u32::decode` under the
configured integer encoding. -/
def u32_decode (cfg : IntEncoding) : Dec Nat :=
  match cfg with
  | .varint => liftVarint leb128_decode_u32_list
  | .fixed => fun s =>
      match s.input with
      | b0 :: b1 :: b2 :: b3 :: rest =>
          .ok (b0 % 256 + 256 * (b1 % 256) + 65536 * (b2 % 256) + 16777216 * (b3 % 256))
            { s with input := rest }
      | _ => .err (.unexpectedEnd 4) s

/-- Modelled from the spec (section 6): `u16::encode` under the
configured integer encoding. -/
def u16_encode (cfg : IntEncoding) (v : Nat) : List Nat :=
  match cfg with
  | .varint => leb128_encode_u128 (v % 2 ^ 16)
  | .fixed => [v % 256, v / 256 % 256]

/-- Modelled from the spec (section 6): `u16::decode` under the
configured integer encoding. -/
def u16_decode (cfg : IntEncoding) : Dec Nat :=
  match cfg with
  | .varint => liftVarint leb128_decode_u16_list
  | .fixed => fun s =>
      match s.input with
      | b0 :: b1 :: rest => .ok (b0 % 256 + 256 * (b1 % 256)) { s with input := rest }
      | _ => .err (.unexpectedEnd 2) s

/-- Modelled from the spec: `u8` is not one of the varint widths
(section 2 lists 16/32/64/128-bit and pointer-sized); a `u8` value
occupies one byte. -/
def u8_encode (v : Nat) : List Nat := [v % 256]

/-- Modelled from the spec: `u8::decode` reads one byte. -/
def u8_decode : Dec Nat := readByteD

/-! ### Network address adapters (impl_std.rs) -/

/-- Model of `std::net::Ipv4Addr` by its four octets. -/
structure Ipv4Addr where
  octets : List Nat
deriving DecidableEq

/-- Model of `std::net::Ipv6Addr` by its sixteen octets. -/
structure Ipv6Addr where
  octets : List Nat
deriving DecidableEq

/-- Model of `std::net::SocketAddrV4`. -/
structure SocketAddrV4 where
  ip : Ipv4Addr
  port : Nat
deriving DecidableEq

/-- Model of `std::net::SocketAddrV6` (equality compares all four
fields, as Rust's `PartialEq` does). -/
structure SocketAddrV6 where
  ip : Ipv6Addr
  port : Nat
  flowinfo : Nat
  scope_id : Nat
deriving DecidableEq

/-- Model of `std::net::IpAddr`. -/
inductive IpAddr where
  | v4 (a : Ipv4Addr)
  | v6 (a : Ipv6Addr)
deriving DecidableEq

/-- Model of `std::net::SocketAddr`. -/
inductive SocketAddr where
  | v4 (a : SocketAddrV4)
  | v6 (a : SocketAddrV6)
deriving DecidableEq

/-- Translation of `Encode for Ipv4Addr` (impl_std.rs:322-326): write
the four octets. -/
def ipv4_encode (a : Ipv4Addr) : List Nat := a.octets

/-- Translation of `Decode for Ipv4Addr` (impl_std.rs:328-334): read a
4-byte buffer. -/
def ipv4_decode : Dec Ipv4Addr := fun s =>
  match readBytesD 4 s with
  | .ok buff s₁ => .ok ⟨buff⟩ s₁
  | .err e s₁ => .err e s₁
  | .panicked m s₁ => .panicked m s₁

/-- Translation of `Encode for Ipv6Addr` (impl_std.rs:337-341). -/
def ipv6_encode (a : Ipv6Addr) : List Nat := a.octets

/-- Translation of `Decode for Ipv6Addr` (impl_std.rs:343-349): read a
16-byte buffer. -/
def ipv6_decode : Dec Ipv6Addr := fun s =>
  match readBytesD 16 s with
  | .ok buff s₁ => .ok ⟨buff⟩ s₁
  | .err e s₁ => .err e s₁
  | .panicked m s₁ => .panicked m s₁

/-- Translation of `Encode for IpAddr` (impl_std.rs:292-305): V4 writes
discriminant `0u32` then the payload, V6 writes `1u32` then the payload;
the discriminant goes through the `u32` capability, hence through the
configured integer encoding. -/
def ipAddr_encode (cfg : IntEncoding) (a : IpAddr) : List Nat :=
  match a with
  | .v4 v4 => u32_encode cfg 0 ++ ipv4_encode v4
  | .v6 v6 => u32_encode cfg 1 ++ ipv6_encode v6

/-- Translation of `Decode for IpAddr` (impl_std.rs:307-319): decode a
`u32` discriminant; 0 dispatches to the V4 decoder, 1 to the V6 decoder,
anything else is an `UnexpectedVariant` error carrying the found value,
the type name and the allowed range `0..=1` (the Rust
`core::any::type_name` string is modelled by the short type name). -/
def ipAddr_decode (cfg : IntEncoding) : Dec IpAddr :=
  dbind (u32_decode cfg) (fun tag =>
    match tag with
    | 0 => fun s =>
        match ipv4_decode s with
        | .ok a s₁ => .ok (.v4 a) s₁
        | .err e s₁ => .err e s₁
        | .panicked m s₁ => .panicked m s₁
    | 1 => fun s =>
        match ipv6_decode s with
        | .ok a s₁ => .ok (.v6 a) s₁
        | .err e s₁ => .err e s₁
        | .panicked m s₁ => .panicked m s₁
    | found => fun s => .err (.unexpectedVariant "IpAddr" 0 1 found) s)

/-- Translation of `Encode for SocketAddrV4` (impl_std.rs:382-387):
encode the ip, then the port. -/
def socketAddrV4_encode (cfg : IntEncoding) (a : SocketAddrV4) : List Nat :=
  ipv4_encode a.ip ++ u16_encode cfg a.port

/-- Translation of `Decode for SocketAddrV4` (impl_std.rs:389-395). -/
def socketAddrV4_decode (cfg : IntEncoding) : Dec SocketAddrV4 :=
  dbind ipv4_decode (fun ip =>
    dbind (u16_decode cfg) (fun port =>
      fun s => .ok ⟨ip, port⟩ s))

/-- Translation of `Encode for SocketAddrV6` (impl_std.rs:398-403):
encode the ip, then the port — the flowinfo and scope_id fields are not
written. -/
def socketAddrV6_encode (cfg : IntEncoding) (a : SocketAddrV6) : List Nat :=
  ipv6_encode a.ip ++ u16_encode cfg a.port

/-- Translation of `Decode for SocketAddrV6` (impl_std.rs:405-411):
decode the ip and the port and construct `Self::new(ip, port, 0, 0)` —
flowinfo and scope_id are always 0. -/
def socketAddrV6_decode (cfg : IntEncoding) : Dec SocketAddrV6 :=
  dbind ipv6_decode (fun ip =>
    dbind (u16_decode cfg) (fun port =>
      fun s => .ok ⟨ip, port, 0, 0⟩ s))

/-- Translation of `Encode for SocketAddr` (impl_std.rs:352-365). -/
def socketAddr_encode (cfg : IntEncoding) (a : SocketAddr) : List Nat :=
  match a with
  | .v4 v4 => u32_encode cfg 0 ++ socketAddrV4_encode cfg v4
  | .v6 v6 => u32_encode cfg 1 ++ socketAddrV6_encode cfg v6

/-- Translation of `Decode for SocketAddr` (impl_std.rs:367-379). -/
def socketAddr_decode (cfg : IntEncoding) : Dec SocketAddr :=
  dbind (u32_decode cfg) (fun tag =>
    match tag with
    | 0 => fun s =>
        match socketAddrV4_decode cfg s with
        | .ok a s₁ => .ok (.v4 a) s₁
        | .err e s₁ => .err e s₁
        | .panicked m s₁ => .panicked m s₁
    | 1 => fun s =>
        match socketAddrV6_decode cfg s with
        | .ok a s₁ => .ok (.v6 a) s₁
        | .err e s₁ => .err e s₁
        | .panicked m s₁ => .panicked m s₁
    | found => fun s => .err (.unexpectedVariant "SocketAddr" 0 1 found) s)

/-! ### Hash container adapters (impl_std.rs) -/

/-- Model of `HashMap::insert`: replace the value of an existing key or
append a new entry. -/
def insertPair {κ ν : Type} [DecidableEq κ] (k : κ) (v : ν) :
    List (κ × ν) → List (κ × ν)
  | [] => [(k, v)]
  | (k', v') :: rest => if k' = k then (k, v) :: rest else (k', v') :: insertPair k v rest

/-- Model of `HashSet::insert`: add the element if it is not present. -/
def insertSet {α : Type} [DecidableEq α] (a : α) (l : List α) : List α :=
  if a ∈ l then l else l ++ [a]

/-- Association-list lookup (`HashMap` observation). -/
def lookupPair {κ ν : Type} [DecidableEq κ] (k : κ) : List (κ × ν) → Option ν
  | [] => none
  | (k', v) :: rest => if k' = k then some v else lookupPair k rest

/-- Translation of the element loop of `Decode for HashMap`
(impl_std.rs:441-448): each iteration releases one element's portion of
the estimate (`size_of::<(K, V)>`, the parameter `sz`) and then decodes
one key and one value. -/
def decodeLoopMap {κ ν : Type} [DecidableEq κ] (sz : Nat) (dk : Dec κ) (dv : Dec ν) :
    Nat → List (κ × ν) → Dec (List (κ × ν))
  | 0, acc => fun s => .ok acc s
  | n + 1, acc =>
    dbind (unclaimBytes sz) (fun _ =>
      dbind dk (fun k =>
        dbind dv (fun v =>
          decodeLoopMap sz dk dv n (insertPair k v acc))))

/-- Translation of the element loop of `Decode for HashSet`
(impl_std.rs:489-495). -/
def decodeLoopSet {α : Type} [DecidableEq α] (sz : Nat) (d : Dec α) :
    Nat → List α → Dec (List α)
  | 0, acc => fun s => .ok acc s
  | n + 1, acc =>
    dbind (unclaimBytes sz) (fun _ =>
      dbind d (fun a =>
        decodeLoopSet sz d n (insertSet a acc)))

/-- Translation of `Encode for HashMap` (impl_std.rs:414-427): write the
length then each key/value pair in the iteration order of the map,
modelled by the order of the entry list. -/
def hashMap_encode {κ ν : Type} (ek : κ → List Nat) (ev : ν → List Nat)
    (entries : List (κ × ν)) : List Nat :=
  encode_slice_len entries.length ++ (entries.map (fun p => ek p.1 ++ ev p.2)).flatten

/-- Translation of `Decode for HashMap` (impl_std.rs:429-451): decode
the length, claim `len * size_of::<(K, V)>` from the budget, allocate
the backing storage, then run the element loop. -/
def hashMap_decode {κ ν : Type} [DecidableEq κ] (sz : Nat) (dk : Dec κ) (dv : Dec ν) :
    Dec (List (κ × ν)) :=
  dbind decode_slice_len (fun len =>
    dbind (claimBytes (len * sz)) (fun _ =>
      dbind (allocCapacity len) (fun _ =>
        decodeLoopMap sz dk dv len [])))

/-- Translation of `Encode for HashSet` (impl_std.rs:523-534). -/
def hashSet_encode {α : Type} (e : α → List Nat) (items : List α) : List Nat :=
  encode_slice_len items.length ++ (items.map e).flatten

/-- Translation of `Decode for HashSet` (impl_std.rs:478-498): decode
the length, claim `len * size_of::<T>`, allocate, then run the loop. -/
def hashSet_decode {α : Type} [DecidableEq α] (sz : Nat) (d : Dec α) : Dec (List α) :=
  dbind decode_slice_len (fun len =>
    dbind (claimBytes (len * sz)) (fun _ =>
      dbind (allocCapacity len) (fun _ =>
        decodeLoopSet sz d len [])))

/-- Map a pure function over a stateful decode result (used to state the
dispatch behaviour of the sum-type decoders). -/
def mapDRes {α β : Type} (f : α → β) : DRes α → DRes β
  | .ok a s => .ok (f a) s
  | .err e s => .err e s
  | .panicked m s => .panicked m s

/-- Discriminant value written for an `IpAddr` variant. -/
def ipTag : IpAddr → Nat
  | .v4 _ => 0
  | .v6 _ => 1

/-- Payload bytes written after the `IpAddr` discriminant. -/
def ipPayload : IpAddr → List Nat
  | .v4 a => ipv4_encode a
  | .v6 a => ipv6_encode a

/-- Discriminant value written for a `SocketAddr` variant. -/
def socketTag : SocketAddr → Nat
  | .v4 _ => 0
  | .v6 _ => 1

/-- Payload bytes written after the `SocketAddr` discriminant. -/
def socketPayload (cfg : IntEncoding) : SocketAddr → List Nat
  | .v4 a => socketAddrV4_encode cfg a
  | .v6 a => socketAddrV6_encode cfg a

/-- Last element of a byte list (0 for the empty list). -/
def lastByte : List Nat → Nat
  | [] => 0
  | [b] => b
  | _ :: b :: rest => lastByte (b :: rest)

/-- The shape of a successful `HashSet` element loop: each of the `n`
rounds performs exactly one release of the per-element size `sz`
(`unclaimState`) immediately before the element decode. -/
inductive SetRuns {α : Type} [DecidableEq α] (sz : Nat) (d : Dec α) :
    Nat → List α → DecState → List α → DecState → Prop where
  | nil : ∀ acc s, SetRuns sz d 0 acc s acc s
  | step : ∀ n acc s a s₁ out s₂,
      d (unclaimState sz s) = .ok a s₁ →
      SetRuns sz d n (insertSet a acc) s₁ out s₂ →
      SetRuns sz d (n + 1) acc s out s₂

/-- The shape of a successful `HashMap` element loop: one release of
`sz` immediately before each key/value decode. -/
inductive MapRuns {κ ν : Type} [DecidableEq κ] (sz : Nat) (dk : Dec κ) (dv : Dec ν) :
    Nat → List (κ × ν) → DecState → List (κ × ν) → DecState → Prop where
  | nil : ∀ acc s, MapRuns sz dk dv 0 acc s acc s
  | step : ∀ n acc s k s₁ v s₂ out s₃,
      dk (unclaimState sz s) = .ok k s₁ →
      dv s₁ = .ok v s₂ →
      MapRuns sz dk dv n (insertPair k v acc) s₂ out s₃ →
      MapRuns sz dk dv (n + 1) acc s out s₃

/-! ### std I/O adapters (impl_std.rs) -/

/-- Model of `std::io::Read::read_exact` over an in-memory medium:
either the whole request is satisfied or the call fails. -/
def readExact (medium : List Nat) (n : Nat) : Option (List Nat × List Nat) :=
  if n ≤ medium.length then some (medium.take n, medium.drop n) else none

/-- Translation of `IoReader::read` (impl_std.rs:67-74): a failed
`read_exact` is mapped to `DecodeError::Io` with
`additional = bytes.len()` — the length of the whole request. -/
def ioReader_read (medium : List Nat) (n : Nat) :
    Except DecodeError (List Nat × List Nat) :=
  match readExact medium n with
  | some r => .ok r
  | none => .error (.ioError n)

/-- Model of the `IoWriter` state (impl_std.rs:116-135): the underlying
sink contents and the `bytes_written` counter. -/
structure IoWriter where
  written : List Nat
  bytes_written : Nat
deriving DecidableEq

/-- Model of `std::io::Write::write_all` over a medium of capacity
`cap`: all-or-nothing. -/
def writeAll (cap : Nat) (sink : List Nat) (bytes : List Nat) : Option (List Nat) :=
  if sink.length + bytes.length ≤ cap then some (sink ++ bytes) else none

/-- Translation of `IoWriter::write` (impl_std.rs:137-149): a failed
`write_all` is mapped to `EncodeError::Io` with
`index = self.bytes_written`; on success the counter grows by the whole
chunk. -/
def ioWriter_write (cap : Nat) (w : IoWriter) (bytes : List Nat) :
    Except EncodeError IoWriter :=
  match writeAll cap w.written bytes with
  | some sink => .ok ⟨sink, w.bytes_written + bytes.length⟩
  | none => .error (.ioError w.bytes_written)

/-! ### Bit-arithmetic helper lemmas -/

theorem testBit_add_mul_pow_low {a b s i : Nat} (hi : i < s) :
    (a + b * 2 ^ s).testBit i = a.testBit i := by
  have hdvd : b * 2 ^ s = b * 2 ^ (s - i) * 2 ^ i := by
    rw [mul_assoc, ← pow_add]
    congr 2
    omega
  rw [Nat.testBit_to_div_mod, Nat.testBit_to_div_mod, hdvd,
    Nat.add_mul_div_right _ _ (Nat.two_pow_pos i)]
  obtain ⟨c, hc⟩ : (2 : Nat) ∣ 2 ^ (s - i) := dvd_pow_self 2 (by omega)
  have h3 : b * 2 ^ (s - i) % 2 = 0 := by
    rw [hc, show b * (2 * c) = 2 * (b * c) by ring, Nat.mul_mod_right]
  rw [decide_eq_decide]
  omega

theorem testBit_mul_pow_low {b s i : Nat} (hi : i < s) :
    (b * 2 ^ s).testBit i = false := by
  have h := testBit_add_mul_pow_low (a := 0) (b := b) hi
  simpa using h

theorem testBit_add_mul_pow_high {a b s i : Nat} (ha : a < 2 ^ s) (hi : s ≤ i) :
    (a + b * 2 ^ s).testBit i = b.testBit (i - s) := by
  have h1 : (a + b * 2 ^ s) / 2 ^ i = b / 2 ^ (i - s) := by
    have hsplit : (2 : Nat) ^ i = 2 ^ s * 2 ^ (i - s) := by
      rw [← pow_add]; congr 1; omega
    rw [hsplit, ← Nat.div_div_eq_div_mul,
      Nat.add_mul_div_right _ _ (Nat.two_pow_pos s), Nat.div_eq_of_lt ha, Nat.zero_add]
  rw [Nat.testBit_to_div_mod, Nat.testBit_to_div_mod, h1]

theorem testBit_mul_pow_high {b s i : Nat} (hi : s ≤ i) :
    (b * 2 ^ s).testBit i = b.testBit (i - s) := by
  have h := testBit_add_mul_pow_high (a := 0) (b := b) (Nat.two_pow_pos s) hi
  simpa using h

/-- Disjoint or is addition: if `a` occupies only the low `s` bits then
or-ing in a multiple of `2 ^ s` adds it. -/
theorem lor_mul_pow_eq_add {a b s : Nat} (h : a < 2 ^ s) :
    a ||| b * 2 ^ s = a + b * 2 ^ s := by
  apply Nat.eq_of_testBit_eq
  intro i
  rcases lt_or_le i s with hi | hi
  · rw [Nat.testBit_or, testBit_add_mul_pow_low hi, testBit_mul_pow_low hi, Bool.or_false]
  · rw [Nat.testBit_or, testBit_add_mul_pow_high h hi, testBit_mul_pow_high hi,
      Nat.testBit_eq_false_of_lt (lt_of_lt_of_le h (Nat.pow_le_pow_right (by omega) hi)),
      Bool.false_or]

/-! ### Correctness of the unsigned varint codec -/

/-- Decoding an encoded value from any intermediate loop state recovers
the value shifted into position. -/
theorem leb128_loop_encode (v : Nat) : ∀ shift acc rest,
    v < 2 ^ (128 - shift) → acc < 2 ^ shift → shift < 128 →
    leb128_decode_u128_loop (leb128_encode_u128 v ++ rest) shift acc
      = .ok (acc + v * 2 ^ shift) rest := by
  induction v using Nat.strong_induction_on with
  | _ v ih =>
    intro shift acc rest hv hacc hs
    rw [leb128_encode_u128]
    by_cases h0 : v / 128 = 0
    · have hv128 : v < 128 := by omega
      simp only [h0, if_true, List.cons_append, leb128_decode_u128_loop]
      simp only [show v % 128 = v from by omega, show v % 256 = v from by omega]
      have hsh : v <<< shift = v * 2 ^ shift := Nat.shiftLeft_eq v shift
      have hlt : v * 2 ^ shift < 2 ^ 128 := by
        calc v * 2 ^ shift < 2 ^ (128 - shift) * 2 ^ shift :=
              (Nat.mul_lt_mul_right (Nat.two_pow_pos shift)).mpr hv
          _ = 2 ^ 128 := by rw [← pow_add]; congr 1; omega
      rw [hsh, Nat.mod_eq_of_lt hlt, lor_mul_pow_eq_add hacc]
      simp [hv128]
    · have h128 : 128 ≤ v := by omega
      have h7 : shift + 7 < 128 := by
        have hlt : (2 : Nat) ^ 7 < 2 ^ (128 - shift) := lt_of_le_of_lt h128 hv
        have := (Nat.pow_lt_pow_iff_right (a := 2) (by omega)).mp hlt
        omega
      simp only [h0, if_false, List.cons_append, leb128_decode_u128_loop]
      have hb : (v % 128 + 128) % 256 = v % 128 + 128 := by omega
      have hb2 : (v % 128 + 128) % 128 = v % 128 := by omega
      rw [hb, hb2]
      have hnl : ¬ (v % 128 + 128 < 128) := by omega
      simp only [hnl, if_false]
      have hns : ¬ (128 ≤ shift + 7) := by omega
      simp only [hns, if_false]
      have hsh : (v % 128) <<< shift = v % 128 * 2 ^ shift := Nat.shiftLeft_eq _ shift
      have hlt : v % 128 * 2 ^ shift < 2 ^ 128 := by
        calc v % 128 * 2 ^ shift < 128 * 2 ^ shift :=
              (Nat.mul_lt_mul_right (Nat.two_pow_pos shift)).mpr (Nat.mod_lt _ (by omega))
          _ = 2 ^ (shift + 7) := by rw [pow_add]; ring
          _ ≤ 2 ^ 128 := Nat.pow_le_pow_right (by omega) (by omega)
      rw [hsh, Nat.mod_eq_of_lt hlt, lor_mul_pow_eq_add hacc]
      have hacc2 : acc + v % 128 * 2 ^ shift < 2 ^ (shift + 7) := by
        have hm : v % 128 * 2 ^ shift ≤ 127 * 2 ^ shift :=
          Nat.mul_le_mul_right _ (by omega)
        have h27 : (2 : Nat) ^ (shift + 7) = 128 * 2 ^ shift := by rw [pow_add]; ring
        omega
      have hv2 : v / 128 < 2 ^ (128 - (shift + 7)) := by
        rw [Nat.div_lt_iff_lt_mul (by omega : 0 < 128)]
        calc v < 2 ^ (128 - shift) := hv
          _ = 2 ^ (128 - (shift + 7)) * 128 := by
              rw [show (128 : Nat) = 2 ^ 7 by norm_num, ← pow_add]
              congr 1
              omega
      rw [ih (v / 128) (Nat.div_lt_self (by omega) (by omega)) (shift + 7)
            _ rest hv2 hacc2 (by omega)]
      have hkey : v % 128 * 2 ^ shift + v / 128 * 2 ^ (shift + 7) = v * 2 ^ shift := by
        conv_rhs => rw [← Nat.mod_add_div v 128]
        rw [pow_add]
        ring
      have hval : acc + v % 128 * 2 ^ shift + v / 128 * 2 ^ (shift + 7)
          = acc + v * 2 ^ shift := by
        rw [add_assoc, hkey]
      rw [hval]

/-- The unsigned encoding is the shortest LEB128 form: the value fits in
the emitted number of 7-bit groups and (unless a single group) does not
fit in one group fewer. -/
theorem leb128_encode_length_bounds (v : Nat) :
    v < 128 ^ (leb128_encode_u128 v).length ∧
    ((leb128_encode_u128 v).length = 1 ∨ 128 ^ ((leb128_encode_u128 v).length - 1) ≤ v) := by
  induction v using Nat.strong_induction_on with
  | _ v ih =>
    rw [leb128_encode_u128]
    by_cases h0 : v / 128 = 0
    · simp only [h0, if_true, List.length_cons, List.length_nil]
      constructor
      · have hv : v < 128 := by omega
        simpa using hv
      · left
        trivial
    · simp only [h0, if_false, List.length_cons]
      obtain ⟨ih1, ih2⟩ := ih (v / 128) (Nat.div_lt_self (by omega) (by omega))
      have h128 : 128 ≤ v := by omega
      constructor
      · have hstep : v < (v / 128 + 1) * 128 := by omega
        calc v < (v / 128 + 1) * 128 := hstep
          _ ≤ 128 ^ (leb128_encode_u128 (v / 128)).length * 128 := by
              have hms : v / 128 + 1 ≤ 128 ^ (leb128_encode_u128 (v / 128)).length := ih1
              exact Nat.mul_le_mul_right _ hms
          _ = 128 ^ ((leb128_encode_u128 (v / 128)).length + 1) := by rw [pow_succ]
      · right
        rcases ih2 with hl | hge
        · rw [hl]
          simpa using h128
        · have hmul : 128 ^ ((leb128_encode_u128 (v / 128)).length - 1) * 128
              ≤ v / 128 * 128 :=
            Nat.mul_le_mul_right _ hge
          have hle : v / 128 * 128 ≤ v := by omega
          have hpow : 128 ^ ((leb128_encode_u128 (v / 128)).length - 1) * 128
              = 128 ^ (leb128_encode_u128 (v / 128)).length := by
            rw [← pow_succ]
            congr 1
            have hne : (leb128_encode_u128 (v / 128)).length ≠ 0 := by
              rw [leb128_encode_u128]
              split <;> simp
            omega
          simp only [Nat.add_sub_cancel]
          omega

/-- Round trip of the unsigned codec at full width. -/
theorem leb128_roundtrip (v : Nat) (rest : List Nat) (hv : v < 2 ^ 128) :
    leb128_decode_u128_list (leb128_encode_u128 v ++ rest) = .ok v rest := by
  have h := leb128_loop_encode v 0 0 rest (by simpa using hv) (by norm_num) (by norm_num)
  simpa [leb128_decode_u128_list] using h

/-! ### Correctness of the signed varint codec -/

theorem lastByte_cons (a : Nat) (l : List Nat) (h : l ≠ []) :
    lastByte (a :: l) = lastByte l := by
  cases l with
  | nil => exact absurd rfl h
  | cons b rest => rfl

theorem sleb128_encode_ne_nil (v : Int) : sleb128_encode_i128 v ≠ [] := by
  rw [sleb128_encode_i128]
  split <;> simp

theorem sleb128_last_sign (v : Int) :
    lastByte (sleb128_encode_i128 v) < 128 ∧
    (64 ≤ lastByte (sleb128_encode_i128 v) ↔ v < 0) := by
  induction v using sleb128_encode_i128.induct with
  | case1 v hcond =>
    rw [sleb128_encode_i128, if_pos hcond]
    have hdm := Int.ediv_add_emod v 128
    have h0 := Int.emod_nonneg v (by norm_num : (128 : Int) ≠ 0)
    have h1 := Int.emod_lt_of_pos v (by norm_num : (0 : Int) < 128)
    simp only [lastByte]
    rcases hcond with ⟨hq, hb⟩ | ⟨hq, hb⟩ <;> refine ⟨by omega, ?_, ?_⟩ <;> intro h <;> omega
  | case2 v hcond ih =>
    rw [sleb128_encode_i128, if_neg hcond]
    rw [lastByte_cons _ _ (sleb128_encode_ne_nil (v / 128))]
    have hdm := Int.ediv_add_emod v 128
    have h0 := Int.emod_nonneg v (by norm_num : (128 : Int) ≠ 0)
    have h1 := Int.emod_lt_of_pos v (by norm_num : (0 : Int) < 128)
    obtain ⟨ihl, ihr⟩ := ih
    refine ⟨ihl, ?_⟩
    rw [ihr]
    omega
theorem sleb128_encode_length_pos (v : Int) : 1 ≤ (sleb128_encode_i128 v).length :=
  List.length_pos.mpr (sleb128_encode_ne_nil v)

theorem sleb128_encode_value_bounds (v : Int) :
    -((2 : Int) ^ (7 * (sleb128_encode_i128 v).length - 1)) ≤ v ∧
    v < (2 : Int) ^ (7 * (sleb128_encode_i128 v).length - 1) := by
  induction v using sleb128_encode_i128.induct with
  | case1 v hcond =>
    rw [sleb128_encode_i128, if_pos hcond]
    have hdm := Int.ediv_add_emod v 128
    have h0 := Int.emod_nonneg v (by norm_num : (128 : Int) ≠ 0)
    have h1 := Int.emod_lt_of_pos v (by norm_num : (0 : Int) < 128)
    simp only [List.length_singleton]
    norm_num
    omega
  | case2 v hcond ih =>
    rw [sleb128_encode_i128, if_neg hcond]
    simp only [List.length_cons]
    have hdm := Int.ediv_add_emod v 128
    have h0 := Int.emod_nonneg v (by norm_num : (128 : Int) ≠ 0)
    have h1 := Int.emod_lt_of_pos v (by norm_num : (0 : Int) < 128)
    have hlen1 := sleb128_encode_length_pos (v / 128)
    have hpow : (2 : Int) ^ (7 * ((sleb128_encode_i128 (v / 128)).length + 1) - 1)
        = 128 * 2 ^ (7 * (sleb128_encode_i128 (v / 128)).length - 1) := by
      have hexp : 7 * ((sleb128_encode_i128 (v / 128)).length + 1) - 1
          = 7 + (7 * (sleb128_encode_i128 (v / 128)).length - 1) := by omega
      rw [hexp, pow_add]
      norm_num
    rw [hpow]
    obtain ⟨ihl, ihr⟩ := ih
    constructor
    · linarith
    · linarith

theorem sleb128_encode_minimal (v : Int) (h2 : 2 ≤ (sleb128_encode_i128 v).length) :
    v < -((2 : Int) ^ (7 * ((sleb128_encode_i128 v).length - 1) - 1)) ∨
    (2 : Int) ^ (7 * ((sleb128_encode_i128 v).length - 1) - 1) ≤ v := by
  induction v using sleb128_encode_i128.induct with
  | case1 v hcond =>
    rw [sleb128_encode_i128, if_pos hcond] at h2
    simp at h2
  | case2 v hcond ih =>
    rw [sleb128_encode_i128, if_neg hcond]
    rw [sleb128_encode_i128, if_neg hcond] at h2
    simp only [List.length_cons, Nat.add_sub_cancel]
    have hdm := Int.ediv_add_emod v 128
    have h0 := Int.emod_nonneg v (by norm_num : (128 : Int) ≠ 0)
    have h1 := Int.emod_lt_of_pos v (by norm_num : (0 : Int) < 128)
    have hlen1 := sleb128_encode_length_pos (v / 128)
    by_cases hl : (sleb128_encode_i128 (v / 128)).length = 1
    · rw [hl]
      push_neg at hcond
      norm_num
      omega
    · have hl2 : 2 ≤ (sleb128_encode_i128 (v / 128)).length := by omega
      have ihc := ih hl2
      have hpow : (2 : Int) ^ (7 * (sleb128_encode_i128 (v / 128)).length - 1)
          = 128 * 2 ^ (7 * ((sleb128_encode_i128 (v / 128)).length - 1) - 1) := by
        have hexp : 7 * (sleb128_encode_i128 (v / 128)).length - 1
            = 7 + (7 * ((sleb128_encode_i128 (v / 128)).length - 1) - 1) := by omega
        rw [hexp, pow_add]
        norm_num
      rw [hpow]
      rcases ihc with hc | hc
      · left
        have hc2 : v / 128 + 1 ≤ -((2 : Int) ^ (7 * ((sleb128_encode_i128 (v / 128)).length - 1) - 1)) := hc
        linarith
      · right
        linarith
theorem mod_mul_split {b M c d : Nat} (hb : b < c) (hd : 0 < d) :
    (b + c * M) % (c * d) = b + c * (M % d) := by
  have hM : M = M % d + d * (M / d) := (Nat.mod_add_div M d).symm
  have hsplit : b + c * M = b + c * (M % d) + M / d * (c * d) := by
    conv_lhs => rw [hM]
    ring
  rw [hsplit, Nat.add_mul_mod_self_right]
  have hlt : b + c * (M % d) < c * d := by
    have h1 : M % d < d := Nat.mod_lt _ hd
    have h2 : c * (M % d) ≤ c * (d - 1) := Nat.mul_le_mul_left _ (by omega)
    have h3 : c * (d - 1) + c = c * d := by
      have h4 : c * (d - 1 + 1) = c * d := by rw [Nat.sub_add_cancel hd]
      rw [Nat.mul_add, Nat.mul_one] at h4
      omega
    omega
  exact Nat.mod_eq_of_lt hlt

theorem emod_mul_pow_split (v : Int) (N : Int) (hN : 0 < N) :
    v % (128 * N) = v % 128 + 128 * ((v / 128) % N) := by
  have hdm := Int.ediv_add_emod v 128
  have h0 := Int.emod_nonneg v (by norm_num : (128 : Int) ≠ 0)
  have h1 := Int.emod_lt_of_pos v (by norm_num : (0 : Int) < 128)
  have hq0 := Int.emod_nonneg (v / 128) (by omega : N ≠ 0)
  have hq1 := Int.emod_lt_of_pos (v / 128) hN
  have hqd := Int.ediv_add_emod (v / 128) N
  have hsplit : v = v % 128 + 128 * ((v / 128) % N) + ((v / 128) / N) * (128 * N) := by
    nlinarith [hdm, hqd]
  calc v % (128 * N)
      = (v % 128 + 128 * ((v / 128) % N) + ((v / 128) / N) * (128 * N)) % (128 * N) := by
        rw [← hsplit]
    _ = (v % 128 + 128 * ((v / 128) % N)) % (128 * N) := Int.add_mul_emod_self
    _ = v % 128 + 128 * ((v / 128) % N) := by
        apply Int.emod_eq_of_lt
        · omega
        · nlinarith

/-- Or-ing a shifted-and-truncated contribution into a low accumulator
is addition of the truncated product. -/
theorem lor_shift_mod (acc X shift : Nat) (hs : shift ≤ 128) (ha : acc < 2 ^ shift) :
    acc ||| (X <<< shift) % 2 ^ 128 = acc + (X * 2 ^ shift) % 2 ^ 128 := by
  rw [Nat.shiftLeft_eq]
  have hsplit : (2 : Nat) ^ 128 = 2 ^ (128 - shift) * 2 ^ shift := by
    rw [← pow_add]
    congr 1
    omega
  have h1 : (X * 2 ^ shift) % 2 ^ 128 = (X % 2 ^ (128 - shift)) * 2 ^ shift := by
    rw [hsplit, Nat.mul_mod_mul_right]
  rw [h1, lor_mul_pow_eq_add ha, ← h1]


theorem sleb_loop_encode (v : Int) : ∀ shift acc rest,
    shift + 7 * ((sleb128_encode_i128 v).length - 1) < 128 →
    acc < 2 ^ shift →
    sleb128_decode_i128_loop (sleb128_encode_i128 v ++ rest) shift acc
      = .ok (acc + ((v % (2 : Int) ^ (7 * (sleb128_encode_i128 v).length)).toNat * 2 ^ shift) % 2 ^ 128,
             shift + 7 * (sleb128_encode_i128 v).length,
             lastByte (sleb128_encode_i128 v)) rest := by
  induction v using sleb128_encode_i128.induct with
  | case1 v hcond =>
    intro shift acc rest hlen hacc
    rw [sleb128_encode_i128, if_pos hcond] at hlen ⊢
    simp only [List.length_singleton] at hlen ⊢
    have hdm := Int.ediv_add_emod v 128
    have h0 := Int.emod_nonneg v (by norm_num : (128 : Int) ≠ 0)
    have h1 := Int.emod_lt_of_pos v (by norm_num : (0 : Int) < 128)
    have hb : (v % 128).toNat < 128 := by omega
    simp only [List.cons_append, List.nil_append, sleb128_decode_i128_loop]
    have hsni : ¬ (128 ≤ shift) := by omega
    simp only [hsni, if_false]
    simp only [show (v % 128).toNat % 256 = (v % 128).toNat from by omega,
      show (v % 128).toNat % 128 = (v % 128).toNat from by omega]
    simp only [hb, if_true]
    rw [lor_shift_mod _ _ _ (by omega) hacc]
    have hm : v % (2 : Int) ^ (7 * 1) = v % 128 := by norm_num
    rw [hm]
    simp only [lastByte]
    constructor

  | case2 v hcond ih =>
    intro shift acc rest hlen hacc
    rw [sleb128_encode_i128, if_neg hcond] at hlen ⊢
    simp only [List.length_cons] at hlen ⊢
    have hdm := Int.ediv_add_emod v 128
    have h0 := Int.emod_nonneg v (by norm_num : (128 : Int) ≠ 0)
    have h1 := Int.emod_lt_of_pos v (by norm_num : (0 : Int) < 128)
    have hk1 : 1 ≤ (sleb128_encode_i128 (v / 128)).length := sleb128_encode_length_pos _
    have hs121 : shift + 7 * (sleb128_encode_i128 (v / 128)).length < 128 := by omega
    have hb : (v % 128).toNat < 128 := by omega
    simp only [List.cons_append, sleb128_decode_i128_loop]
    have hsni : ¬ (128 ≤ shift) := by omega
    simp only [hsni, if_false]
    simp only [show ((v % 128).toNat + 128) % 256 = (v % 128).toNat + 128 from by omega,
      show ((v % 128).toNat + 128) % 128 = (v % 128).toNat from by omega]
    have hnb : ¬ ((v % 128).toNat + 128 < 128) := by omega
    simp only [hnb, if_false]
    rw [lor_shift_mod _ _ _ (by omega) hacc]
    -- the first group is not truncated
    have hsmall : ((v % 128).toNat * 2 ^ shift) % 2 ^ 128 = (v % 128).toNat * 2 ^ shift := by
      apply Nat.mod_eq_of_lt
      calc (v % 128).toNat * 2 ^ shift < 128 * 2 ^ shift :=
            (Nat.mul_lt_mul_right (Nat.two_pow_pos shift)).mpr hb
        _ = 2 ^ (shift + 7) := by rw [pow_add]; ring
        _ ≤ 2 ^ 128 := Nat.pow_le_pow_right (by omega) (by omega)
    rw [hsmall]
    have hacc2 : acc + (v % 128).toNat * 2 ^ shift < 2 ^ (shift + 7) := by
      have hm : (v % 128).toNat * 2 ^ shift ≤ 127 * 2 ^ shift :=
        Nat.mul_le_mul_right _ (by omega)
      have h27 : (2 : Nat) ^ (shift + 7) = 128 * 2 ^ shift := by rw [pow_add]; ring
      omega
    simp only [List.append_eq]
    rw [ih (shift + 7) _ rest (by omega) hacc2]
    -- align the three components
    have hlast : lastByte (((v % 128).toNat + 128) :: sleb128_encode_i128 (v / 128))
        = lastByte (sleb128_encode_i128 (v / 128)) :=
      lastByte_cons _ _ (sleb128_encode_ne_nil _)
    rw [hlast]
    have hshift : shift + 7 + 7 * (sleb128_encode_i128 (v / 128)).length
        = shift + 7 * ((sleb128_encode_i128 (v / 128)).length + 1) := by ring
    rw [hshift]
    -- align the accumulated value
    have hNpos : (0 : Int) < 2 ^ (7 * (sleb128_encode_i128 (v / 128)).length) := by positivity
    have hEsplit : v % (2 : Int) ^ (7 * ((sleb128_encode_i128 (v / 128)).length + 1))
        = v % 128 + 128 * ((v / 128) % 2 ^ (7 * (sleb128_encode_i128 (v / 128)).length)) := by
      have hpow : (2 : Int) ^ (7 * ((sleb128_encode_i128 (v / 128)).length + 1))
          = 128 * 2 ^ (7 * (sleb128_encode_i128 (v / 128)).length) := by
        have hexp : 7 * ((sleb128_encode_i128 (v / 128)).length + 1)
            = 7 + 7 * (sleb128_encode_i128 (v / 128)).length := by ring
        rw [hexp, pow_add]
        norm_num
      rw [hpow, emod_mul_pow_split _ _ hNpos]
    rw [hEsplit]
    have hq0 := Int.emod_nonneg (v / 128) (by omega : ((2 : Int) ^ (7 * (sleb128_encode_i128 (v / 128)).length)) ≠ 0)
    -- move to Nat
    set Mi := (v / 128) % 2 ^ (7 * (sleb128_encode_i128 (v / 128)).length) with hMi
    have htn : (v % 128 + 128 * Mi).toNat = (v % 128).toNat + 128 * Mi.toNat := by
      omega
    rw [htn]
    -- Nat-side regrouping of the truncated sums
    have hkey : ((v % 128).toNat + 128 * Mi.toNat) * 2 ^ shift % 2 ^ 128
        = (v % 128).toNat * 2 ^ shift + Mi.toNat * 2 ^ (shift + 7) % 2 ^ 128 := by
      have hsp1 : (2 : Nat) ^ 128 = 2 ^ (128 - shift) * 2 ^ shift := by
        rw [← pow_add]; congr 1; omega
      have hsp2 : (2 : Nat) ^ (128 - shift) = 128 * 2 ^ (121 - shift) := by
        rw [show (128 : Nat) = 2 ^ 7 from by norm_num, ← pow_add]
        congr 1
        omega
      have hsp3 : (2 : Nat) ^ 128 = 2 ^ (121 - shift) * 2 ^ (shift + 7) := by
        rw [← pow_add]; congr 1; omega
      calc ((v % 128).toNat + 128 * Mi.toNat) * 2 ^ shift % 2 ^ 128
          = (((v % 128).toNat + 128 * Mi.toNat) % 2 ^ (128 - shift)) * 2 ^ shift := by
            rw [hsp1, Nat.mul_mod_mul_right]
        _ = ((v % 128).toNat + 128 * (Mi.toNat % 2 ^ (121 - shift))) * 2 ^ shift := by
            rw [hsp2, mod_mul_split hb (Nat.two_pow_pos _)]
        _ = (v % 128).toNat * 2 ^ shift + (Mi.toNat % 2 ^ (121 - shift)) * 2 ^ (shift + 7) := by
            rw [pow_add]; ring
        _ = (v % 128).toNat * 2 ^ shift + Mi.toNat * 2 ^ (shift + 7) % 2 ^ 128 := by
            rw [hsp3, Nat.mul_mod_mul_right]
    rw [hkey, ← Nat.add_assoc]
theorem sleb128_encode_length_le (v : Int) (h1 : -(2 ^ 127) ≤ v) (h2 : v < 2 ^ 127) :
    (sleb128_encode_i128 v).length ≤ 19 := by
  by_contra hcon
  push_neg at hcon
  have hm := sleb128_encode_minimal v (by omega)
  have hle : (2 : Int) ^ 127 ≤ 2 ^ (7 * ((sleb128_encode_i128 v).length - 1) - 1) := by
    apply pow_le_pow_right₀ (by norm_num)
    omega
  rcases hm with hm | hm
  · linarith
  · linarith

theorem emod_eq_add_self_of_neg (v N : Int) (hl : -N ≤ v) (hu : v < 0) :
    v % N = v + N := by
  have h1 : (v + N) % N = v % N := by
    conv_lhs => rw [show v + N = v + 1 * N from by ring]
    exact Int.add_mul_emod_self
  rw [← h1]
  exact Int.emod_eq_of_lt (by omega) (by omega)

theorem toNat_mod_133_128 (v : Int) (h1 : -(2 ^ 127) ≤ v) (hneg : v < 0) :
    ((v + 2 ^ 133).toNat) % 2 ^ 128 = (v + 2 ^ 128).toNat := by
  omega

theorem toNat_cast_sub_two_pow (v : Int) (h1 : -(2 ^ 127) ≤ v) (hneg : v < 0) :
    (((v + 2 ^ 128).toNat : Int)) - 2 ^ 128 = v := by
  omega

theorem two_pow_127_le_toNat (v : Int) (h1 : -(2 ^ 127) ≤ v) (hneg : v < 0) :
    2 ^ 127 ≤ (v + 2 ^ 128).toNat := by
  omega

set_option maxRecDepth 8000 in
theorem sleb128_roundtrip (v : Int) (rest : List Nat)
    (h1 : -(2 ^ 127) ≤ v) (h2 : v < 2 ^ 127) :
    sleb128_decode_i128_list (sleb128_encode_i128 v ++ rest) = .ok v rest := by
  have hlenp := sleb128_encode_length_pos v
  have hlen19 := sleb128_encode_length_le v h1 h2
  have hloop := sleb_loop_encode v 0 0 rest (by omega) (by norm_num)
  obtain ⟨hlast128, hlastsign⟩ := sleb128_last_sign v
  obtain ⟨hbl, hbu⟩ := sleb128_encode_value_bounds v
  rw [sleb128_decode_i128_list, hloop]
  set k := (sleb128_encode_i128 v).length with hk
  simp only [pow_zero, mul_one, Nat.zero_add]
  rcases lt_or_le v 0 with hneg | hpos
  · -- negative values: bit 6 of the last byte is set
    have hbit : 64 ≤ lastByte (sleb128_encode_i128 v) := hlastsign.mpr hneg
    have hpowle : (2 : Int) ^ (7 * k - 1) ≤ 2 ^ (7 * k) := pow_le_pow_right₀ (by norm_num) (by omega)
    have hppos : (0 : Int) < 2 ^ (7 * k) := by positivity
    have hmv : v % (2 : Int) ^ (7 * k) = v + 2 ^ (7 * k) :=
      emod_eq_add_self_of_neg v _ (by linarith) hneg
    have hcast : ((2 : Int) ^ (7 * k)).toNat = (2 : Nat) ^ (7 * k) := by
      rw [show ((2 : Int) ^ (7 * k)) = (((2 : Nat) ^ (7 * k) : Nat) : Int) from by push_cast; ring]
      exact Int.toNat_natCast _
    have hltI : v % (2 : Int) ^ (7 * k) < 2 ^ (7 * k) := Int.emod_lt_of_pos v hppos
    have h0I : 0 ≤ v % (2 : Int) ^ (7 * k) := Int.emod_nonneg v (ne_of_gt hppos)
    have hm0lt : (v % (2 : Int) ^ (7 * k)).toNat < 2 ^ (7 * k) := by omega
    rcases lt_or_le (7 * k) 128 with hks | hkl
    · -- fewer than 19 groups: sign extension fills the high bits
      simp only [hks, hbit, and_true, if_true, true_and, if_pos]
      have h128 : (2 : Nat) ^ (7 * k) ≤ 2 ^ 128 := Nat.pow_le_pow_right (by omega) (by omega)
      have hm0 : ((v % (2 : Int) ^ (7 * k)).toNat) % 2 ^ 128 = (v % (2 : Int) ^ (7 * k)).toNat := by
        apply Nat.mod_eq_of_lt
        omega
      rw [hm0]
      have hmask : (2 : Nat) ^ 128 - 2 ^ (7 * k) = (2 ^ (128 - 7 * k) - 1) * 2 ^ (7 * k) := by
        rw [Nat.sub_one_mul, ← pow_add]
        congr 2
        omega
      rw [hmask, lor_mul_pow_eq_add hm0lt, ← hmask]
      have hN : ((v % (2 : Int) ^ (7 * k)).toNat + (2 ^ 128 - 2 ^ (7 * k)) : Int)
          = v + 2 ^ 128 := by
        rw [hmv]
        push_cast [Nat.cast_sub h128]
        have : ((v + 2 ^ (7 * k)).toNat : Int) = v + 2 ^ (7 * k) := by
          rw [Int.toNat_of_nonneg (by linarith)]
        push_cast at this ⊢
        omega
      rw [toInt128]
      split
      · rename_i hlt127
        exfalso
        have : ((v % (2 : Int) ^ (7 * k)).toNat + (2 ^ 128 - 2 ^ (7 * k)) : Int) < 2 ^ 127 := by
          exact_mod_cast Nat.cast_lt.mpr hlt127
        omega
      · congr 1
        have : ((v % (2 : Int) ^ (7 * k)).toNat + (2 ^ 128 - 2 ^ (7 * k)) : Int) = v + 2 ^ 128 := hN
        omega
    · -- 19 groups: the shift has reached 133, no sign extension
      have hk19 : k = 19 := by omega
      rw [hk19] at hmv ⊢
      simp only [show ¬ ((7 : Nat) * 19 < 128) from by norm_num, false_and, if_false]
      rw [toInt128]
      have hmv19 : v % (2 : Int) ^ (7 * 19) = v + 2 ^ 133 := by
        rw [hmv]
        try norm_num
      rw [hmv19]
      have htn : ((v + 2 ^ 133).toNat) % 2 ^ 128 = (v + 2 ^ 128).toNat :=
        toNat_mod_133_128 v h1 hneg
      rw [htn]
      split
      · rename_i hlt127
        exact absurd hlt127 (not_lt.mpr (two_pow_127_le_toNat v h1 hneg))
      · rw [toNat_cast_sub_two_pow v h1 hneg]
  · -- nonnegative values: no sign extension
    have hbit : ¬ 64 ≤ lastByte (sleb128_encode_i128 v) := by
      rw [hlastsign]
      omega
    simp only [hbit, and_false, if_false]
    have hpowle : (2 : Int) ^ (7 * k - 1) ≤ 2 ^ (7 * k) := pow_le_pow_right₀ (by norm_num) (by omega)
    have hmv : v % (2 : Int) ^ (7 * k) = v := Int.emod_eq_of_lt hpos (by linarith)
    rw [hmv, toInt128]
    have htn : v.toNat % 2 ^ 128 = v.toNat := by omega
    rw [htn]
    split
    · rw [Int.toNat_of_nonneg hpos]
    · rename_i hge
      exfalso
      omega

/-! ### Hash container lemmas -/

theorem lookupPair_insertPair_self {κ ν : Type} [DecidableEq κ] (k : κ) (v : ν) :
    ∀ m : List (κ × ν), lookupPair k (insertPair k v m) = some v := by
  intro m
  induction m with
  | nil => simp [insertPair, lookupPair]
  | cons p rest ih =>
    obtain ⟨k', v'⟩ := p
    by_cases hk : k' = k
    · subst hk
      simp [insertPair, lookupPair]
    · simp only [insertPair, hk, if_false, lookupPair]
      exact ih

theorem lookupPair_insertPair_ne {κ ν : Type} [DecidableEq κ] (k q : κ) (v : ν)
    (hq : q ≠ k) : ∀ m : List (κ × ν), lookupPair k (insertPair q v m) = lookupPair k m := by
  intro m
  induction m with
  | nil => simp [insertPair, lookupPair, hq]
  | cons p rest ih =>
    obtain ⟨k', v'⟩ := p
    by_cases hk : k' = q
    · subst hk
      simp only [insertPair, if_pos rfl, lookupPair]
      rw [if_neg hq, if_neg hq]
    · simp only [insertPair, hk, if_false, lookupPair]
      by_cases hkk : k' = k
      · rw [if_pos hkk, if_pos hkk]
      · rw [if_neg hkk, if_neg hkk]
        exact ih

theorem lookupPair_eq_none_of_not_mem {κ ν : Type} [DecidableEq κ] (k : κ) :
    ∀ L : List (κ × ν), k ∉ L.map Prod.fst → lookupPair k L = none := by
  intro L
  induction L with
  | nil => intro _; rfl
  | cons p rest ih =>
    intro hmem
    obtain ⟨k', v'⟩ := p
    simp only [List.map_cons, List.mem_cons] at hmem
    push_neg at hmem
    simp only [lookupPair]
    rw [if_neg (fun h => hmem.1 h.symm)]
    exact ih hmem.2

/-- Folding the decoded entries into the map (in decode order) gives the
association of the encoded list on top of the accumulator. -/
theorem lookupPair_foldl_insert {κ ν : Type} [DecidableEq κ] (k : κ) :
    ∀ (L : List (κ × ν)) (acc : List (κ × ν)), (L.map Prod.fst).Nodup →
    lookupPair k (L.foldl (fun m p => insertPair p.1 p.2 m) acc)
      = match lookupPair k L with
        | some v => some v
        | none => lookupPair k acc := by
  intro L
  induction L with
  | nil => intro acc _; rfl
  | cons p rest ih =>
    intro acc hnd
    obtain ⟨k', v'⟩ := p
    simp only [List.map_cons, List.nodup_cons] at hnd
    obtain ⟨hk', hnd'⟩ := hnd
    simp only [List.foldl_cons]
    rw [ih _ hnd']
    simp only [lookupPair]
    by_cases hk : k' = k
    · subst hk
      rw [if_pos rfl, lookupPair_eq_none_of_not_mem _ _ hk',
        lookupPair_insertPair_self]
    · rw [if_neg hk]
      cases hrest : lookupPair k rest
      · rw [lookupPair_insertPair_ne _ _ _ hk]
      · rfl

theorem lookupPair_foldl_insert_nil {κ ν : Type} [DecidableEq κ] (k : κ)
    (L : List (κ × ν)) (hnd : (L.map Prod.fst).Nodup) :
    lookupPair k (L.foldl (fun m p => insertPair p.1 p.2 m) [])
      = lookupPair k L := by
  rw [lookupPair_foldl_insert k L [] hnd]
  cases lookupPair k L <;> rfl

/-- Lookup in a nodup-keyed association list is invariant under
permutation (the decoded map does not depend on encode iteration
order). -/
theorem lookupPair_perm {κ ν : Type} [DecidableEq κ] {L1 L2 : List (κ × ν)}
    (hp : L1.Perm L2) (hnd : (L1.map Prod.fst).Nodup) (k : κ) :
    lookupPair k L1 = lookupPair k L2 := by
  induction hp with
  | nil => rfl
  | cons x h ih =>
    obtain ⟨kx, vx⟩ := x
    simp only [List.map_cons, List.nodup_cons] at hnd
    simp only [lookupPair]
    by_cases hk : kx = k
    · rw [if_pos hk, if_pos hk]
    · rw [if_neg hk, if_neg hk]
      exact ih hnd.2
  | swap x y l =>
    obtain ⟨kx, vx⟩ := x
    obtain ⟨ky, vy⟩ := y
    simp only [List.map_cons, List.nodup_cons, List.mem_cons] at hnd
    push_neg at hnd
    have hxy : ky ≠ kx := hnd.1.1
    by_cases h1 : ky = k
    · by_cases h2 : kx = k
      · exact absurd (h1.trans h2.symm) hxy
      · simp [lookupPair, h1, h2]
    · by_cases h2 : kx = k
      · simp [lookupPair, h1, h2]
      · simp [lookupPair, h1, h2]
  | trans h1 h2 ih1 ih2 =>
    rw [ih1 hnd, ih2 (((h1.map Prod.fst).nodup_iff).mp hnd)]

/-- Byte size of the encoded entries of a `u8`-keyed, `u8`-valued map. -/
theorem pairBytes_length (L : List (Nat × Nat)) :
    ((L.map fun p => u8_encode p.1 ++ u8_encode p.2).flatten).length = 2 * L.length := by
  induction L with
  | nil => rfl
  | cons p rest ih =>
    have h2 : (u8_encode p.1).length = 1 := rfl
    have h3 : (u8_encode p.2).length = 1 := rfl
    simp only [List.map_cons, List.flatten_cons, List.length_append, List.length_cons, ih]
    omega

/-- A `u8` decode step on a nonempty input. -/
theorem u8_decode_cons (b : Nat) (hb : b < 256) (rest : List Nat) (r : Nat) (tr : List Event) :
    u8_decode ⟨b :: rest, r, tr⟩ = .ok b ⟨rest, r, tr⟩ := by
  simp [u8_decode, readByteD, Nat.mod_eq_of_lt hb]

/-- One round of the `HashMap` element loop on two in-range bytes:
release 2 bytes, read the key and the value, insert. -/
theorem decodeLoopMapU8_step (n : Nat) (acc : List (Nat × Nat)) (k v : Nat)
    (B : List Nat) (r : Nat) (tr : List Event) (hk : k < 256) (hv : v < 256) :
    decodeLoopMap 2 u8_decode u8_decode (n + 1) acc ⟨k :: v :: B, r, tr⟩
      = decodeLoopMap 2 u8_decode u8_decode n (insertPair k v acc)
          ⟨B, r - 2, tr ++ [.unclaim 2]⟩ := by
  simp only [decodeLoopMap, dbind, unclaimBytes, unclaimState]
  rw [u8_decode_cons k hk]
  dsimp only
  rw [u8_decode_cons v hv]

/-- Running the `HashMap` element loop of `u8` pairs over their encoded
bytes: each iteration releases 2 bytes, reads the pair and inserts it. -/
theorem decodeLoopMap_u8_run :
    ∀ (L : List (Nat × Nat)) (acc : List (Nat × Nat)) (tail : List Nat)
      (r : Nat) (tr : List Event),
    (∀ p ∈ L, p.1 < 256 ∧ p.2 < 256) →
    decodeLoopMap 2 u8_decode u8_decode L.length acc
        ⟨(L.map fun p => u8_encode p.1 ++ u8_encode p.2).flatten ++ tail, r, tr⟩
      = .ok (L.foldl (fun m p => insertPair p.1 p.2 m) acc)
          ⟨tail, r - 2 * L.length, tr ++ List.replicate L.length (.unclaim 2)⟩ := by
  intro L
  induction L with
  | nil =>
    intro acc tail r tr _
    simp [decodeLoopMap]
  | cons p rest ih =>
    intro acc tail r tr hb
    obtain ⟨k, v⟩ := p
    obtain ⟨hk, hv⟩ := hb (k, v) (by simp)
    have hk256 : u8_encode k = [k] := by
      simp only [u8_encode]
      rw [Nat.mod_eq_of_lt hk]
    have hv256 : u8_encode v = [v] := by
      simp only [u8_encode]
      rw [Nat.mod_eq_of_lt hv]
    simp only [List.map_cons, List.flatten_cons, List.length_cons]
    have hshape : (u8_encode (k, v).1 ++ u8_encode (k, v).2
          ++ (rest.map fun p => u8_encode p.1 ++ u8_encode p.2).flatten) ++ tail
        = k :: v :: ((rest.map fun p => u8_encode p.1 ++ u8_encode p.2).flatten ++ tail) := by
      rw [show u8_encode (k, v).1 = u8_encode k from rfl,
        show u8_encode (k, v).2 = u8_encode v from rfl, hk256, hv256]
      simp
    rw [hshape, decodeLoopMapU8_step _ _ _ _ _ _ _ hk hv]
    rw [ih (insertPair k v acc) tail (r - 2) (tr ++ [Event.unclaim 2])
      (fun q hq => hb q (by simp [hq]))]
    simp only [List.foldl_cons]
    have hres : r - 2 - 2 * rest.length = r - 2 * (rest.length + 1) := by omega
    have htr : (tr ++ [Event.unclaim 2]) ++ List.replicate rest.length (Event.unclaim 2)
        = tr ++ List.replicate (rest.length + 1) (Event.unclaim 2) := by
      rw [List.append_assoc, List.singleton_append, ← List.replicate_succ]
    rw [hres, htr]

/-! ### Trace structure of the container loops -/

theorem decodeLoopSet_runs {α : Type} [DecidableEq α] (sz : Nat) (d : Dec α) :
    ∀ (n : Nat) (acc : List α) (s : DecState) (out : List α) (s₂ : DecState),
    decodeLoopSet sz d n acc s = .ok out s₂ → SetRuns sz d n acc s out s₂ := by
  intro n
  induction n with
  | zero =>
    intro acc s out s₂ h
    cases h
    exact .nil _ _
  | succ m ih =>
    intro acc s out s₂ h
    simp only [decodeLoopSet, dbind, unclaimBytes] at h
    rcases hd : d (unclaimState sz s) with ⟨a, s₁⟩ | ⟨e, s₁⟩ | ⟨msg, s₁⟩ <;>
      rw [hd] at h <;> dsimp only at h
    · exact .step m acc s a s₁ out s₂ hd (ih _ _ _ _ h)
    · cases h
    · cases h

theorem decodeLoopMap_runs {κ ν : Type} [DecidableEq κ] (sz : Nat) (dk : Dec κ) (dv : Dec ν) :
    ∀ (n : Nat) (acc : List (κ × ν)) (s : DecState) (out : List (κ × ν)) (s₃ : DecState),
    decodeLoopMap sz dk dv n acc s = .ok out s₃ → MapRuns sz dk dv n acc s out s₃ := by
  intro n
  induction n with
  | zero =>
    intro acc s out s₃ h
    cases h
    exact .nil _ _
  | succ m ih =>
    intro acc s out s₃ h
    simp only [decodeLoopMap, dbind, unclaimBytes] at h
    rcases hk : dk (unclaimState sz s) with ⟨k, s₁⟩ | ⟨e, s₁⟩ | ⟨msg, s₁⟩ <;>
      rw [hk] at h <;> dsimp only at h
    · rcases hv : dv s₁ with ⟨v, s₂⟩ | ⟨e, s₂⟩ | ⟨msg, s₂⟩ <;>
        rw [hv] at h <;> dsimp only at h
      · exact .step m acc s k s₁ v s₂ out s₃ hk hv (ih _ _ _ _ h)
      · cases h
      · cases h
    · cases h
    · cases h

/-- The state produced by a successful `decode_slice_len` differs from
the input state only in the consumed bytes. -/
theorem decode_slice_len_state (s : DecState) (len : Nat) (s₁ : DecState)
    (h : decode_slice_len s = .ok len s₁) :
    s₁.reserved = s.reserved ∧ s₁.trace = s.trace := by
  simp only [decode_slice_len, liftVarint] at h
  rcases hv : leb128_decode_usize_list s.input with ⟨v, rest⟩ | e | m <;>
    rw [hv] at h <;> cases h
  exact ⟨rfl, rfl⟩

/-! ### Round trips of the address adapters -/

/-- Decoding the encoding of a `SocketAddrV6` under the default
configuration recovers the ip and port with zeroed flowinfo and
scope_id. -/
theorem socketAddrV6_roundtrip_zero (a : SocketAddrV6) (hip : a.ip.octets.length = 16)
    (hport : a.port < 2 ^ 16) :
    socketAddrV6_decode .varint (initState (socketAddrV6_encode .varint a))
      = .ok ⟨a.ip, a.port, 0, 0⟩ ⟨[], 0, []⟩ := by
  cases a with
  | mk ip port fi sc =>
    cases ip with
    | mk octs =>
      simp only at hip hport
      have henc : socketAddrV6_encode .varint ⟨⟨octs⟩, port, fi, sc⟩
          = octs ++ leb128_encode_u128 port := by
        simp only [socketAddrV6_encode, ipv6_encode, u16_encode]
        rw [Nat.mod_eq_of_lt (by omega : port < 2 ^ 16)]
      rw [henc]
      have hi : ipv6_decode ⟨octs ++ leb128_encode_u128 port, 0, []⟩
          = .ok ⟨octs⟩ ⟨leb128_encode_u128 port, 0, []⟩ := by
        simp only [ipv6_decode, readBytesD]
        rw [if_pos (by simp [hip])]
        have ht : (octs ++ leb128_encode_u128 port).take 16 = octs := by
          rw [← hip]
          exact List.take_left octs _
        have hd : (octs ++ leb128_encode_u128 port).drop 16 = leb128_encode_u128 port := by
          rw [← hip]
          exact List.drop_left octs _
        rw [ht, hd]
      have hu : u16_decode .varint ⟨leb128_encode_u128 port, 0, []⟩ = .ok port ⟨[], 0, []⟩ := by
        simp only [u16_decode, liftVarint, leb128_decode_u16_list]
        have hrt := leb128_roundtrip port [] (by omega)
        rw [List.append_nil] at hrt
        rw [hrt]
        simp [show ¬ (65535 : Nat) < port from by omega]
      simp only [socketAddrV6_decode, dbind, initState, hi, hu]

/-- Decoding the encoding of a `u8`-keyed, `u8`-valued map recovers the
map: the length prefix round-trips, the budget claim of
`len * size_of::<(u8, u8)> = len * 2` succeeds against the `2 * len`
encoded bytes, and the element loop reads back every entry. -/
theorem hashMapU8_roundtrip (L : List (Nat × Nat))
    (hb : ∀ p ∈ L, p.1 < 256 ∧ p.2 < 256) (hlen : L.length < 2 ^ 64) :
    hashMap_decode 2 u8_decode u8_decode
        (initState (hashMap_encode u8_encode u8_encode L))
      = .ok (L.foldl (fun m p => insertPair p.1 p.2 m) [])
          ⟨[], 0, Event.claim (L.length * 2) :: Event.alloc L.length ::
            List.replicate L.length (.unclaim 2)⟩ := by
  have hbody := pairBytes_length L
  have hsl : decode_slice_len (initState (hashMap_encode u8_encode u8_encode L))
      = .ok L.length
          ⟨(L.map fun p => u8_encode p.1 ++ u8_encode p.2).flatten, 0, []⟩ := by
    simp only [decode_slice_len, liftVarint, initState, hashMap_encode, encode_slice_len,
      leb128_decode_usize_list]
    rw [leb128_roundtrip L.length _ (by
      have h64 : (2 : Nat) ^ 64 < 2 ^ 128 := by norm_num
      omega)]
    simp [show ¬ (18446744073709551615 < L.length) from by omega]
  simp only [hashMap_decode, dbind]
  rw [hsl]
  dsimp only
  have hclaim : claimBytes (L.length * 2)
      ⟨(L.map fun p => u8_encode p.1 ++ u8_encode p.2).flatten, 0, []⟩
      = .ok () ⟨(L.map fun p => u8_encode p.1 ++ u8_encode p.2).flatten,
          L.length * 2, [.claim (L.length * 2)]⟩ := by
    simp only [claimBytes]
    rw [if_neg (by simp only [hbody]; omega)]
    simp
  rw [hclaim]
  dsimp only
  dsimp only [allocCapacity]
  simp only [List.singleton_append]
  have hloop := decodeLoopMap_u8_run L []
    [] (L.length * 2) [Event.claim (L.length * 2), Event.alloc L.length] hb
  rw [List.append_nil] at hloop
  rw [hloop]
  have hres : L.length * 2 - 2 * L.length = 0 := by omega
  rw [hres]
  simp

/-! ### Claim theorems -/

/-- C3: for every unsigned value in `[0, 2^128)` and every signed value
in `[-2^127, 2^127)`, the varint encoding contains no redundant
continuation byte (it is the shortest LEB128/SLEB128 form, and zero
encodes as the single zero byte), and decoding the encoding returns
exactly the original value at the full 128-bit width. -/
theorem C3_varint_minimal_roundtrip :
    leb128_encode_u128 0 = [0] ∧
    (∀ v rest, v < 2 ^ 128 →
      leb128_decode_u128_list (leb128_encode_u128 v ++ rest) = .ok v rest ∧
      v < 128 ^ (leb128_encode_u128 v).length ∧
      ((leb128_encode_u128 v).length = 1 ∨ 128 ^ ((leb128_encode_u128 v).length - 1) ≤ v)) ∧
    (∀ v rest, -(2 ^ 127) ≤ v → v < 2 ^ 127 →
      sleb128_decode_i128_list (sleb128_encode_i128 v ++ rest) = .ok v rest ∧
      -((2 : Int) ^ (7 * (sleb128_encode_i128 v).length - 1)) ≤ v ∧
      v < (2 : Int) ^ (7 * (sleb128_encode_i128 v).length - 1) ∧
      ((sleb128_encode_i128 v).length = 1 ∨
        v < -((2 : Int) ^ (7 * ((sleb128_encode_i128 v).length - 1) - 1)) ∨
        (2 : Int) ^ (7 * ((sleb128_encode_i128 v).length - 1) - 1) ≤ v)) := by
  refine ⟨by simp [leb128_encode_u128], fun v rest hv => ?_, fun v rest h1 h2 => ?_⟩
  · exact ⟨leb128_roundtrip v rest hv, (leb128_encode_length_bounds v).1,
      (leb128_encode_length_bounds v).2⟩
  · refine ⟨sleb128_roundtrip v rest h1 h2, (sleb128_encode_value_bounds v).1,
      (sleb128_encode_value_bounds v).2, ?_⟩
    by_cases hl : (sleb128_encode_i128 v).length = 1
    · exact Or.inl hl
    · have hp := sleb128_encode_length_pos v
      exact Or.inr (sleb128_encode_minimal v (by omega))

/-- Witness for C3 at the spec's scenario values 300 and -1. -/
theorem C3_varint_minimal_roundtrip_witness :
    leb128_decode_u128_list (leb128_encode_u128 300 ++ []) = .ok 300 [] ∧
    sleb128_decode_i128_list (sleb128_encode_i128 (-1) ++ []) = .ok (-1) [] :=
  ⟨(C3_varint_minimal_roundtrip.2.1 300 [] (by norm_num)).1,
   (C3_varint_minimal_roundtrip.2.2 (-1) [] (by norm_num) (by norm_num)).1⟩

set_option maxRecDepth 8000 in
/-- C4 (evaluation at the failing input): on twenty continuation groups
the unsigned decoder fails with the malformed-varint decode error, but
the signed decoder reaches `result |= ((byte & 0x7F) as i128) << shift`
with `shift = 133` and panics with an arithmetic overflow instead of
returning a decode error (with overflow checks compiled out it would
instead silently accept the over-long varint). -/
theorem C4_signed_runaway_not_an_error :
    leb128_decode_u128_list (List.replicate 19 0x80 ++ [0x00])
      = .fail (.other "LEB128 overflow") ∧
    sleb128_decode_i128_list (List.replicate 19 0x80 ++ [0x00])
      = .panicked "attempt to shift left with overflow" := by
  constructor <;> decide

/-- C5: whenever the full 128-bit decode succeeds with value `v`, each
narrower decoder returns exactly `v` when `v` fits the width and fails
with the width's overflow error otherwise — never a truncated value. -/
theorem C5_narrowing_never_truncates (l : List Nat) :
    (∀ v rest, leb128_decode_u128_list l = .ok v rest →
      (leb128_decode_u64_list l =
        if v < 2 ^ 64 then .ok v rest else .fail (.other "LEB128 overflow u64")) ∧
      (leb128_decode_u32_list l =
        if v < 2 ^ 32 then .ok v rest else .fail (.other "LEB128 overflow u32")) ∧
      (leb128_decode_u16_list l =
        if v < 2 ^ 16 then .ok v rest else .fail (.other "LEB128 overflow u16")) ∧
      (leb128_decode_usize_list l =
        if v < 2 ^ 64 then .ok v rest else .fail (.other "LEB128 overflow usize"))) ∧
    (∀ v rest, sleb128_decode_i128_list l = .ok v rest →
      (sleb128_decode_i64_list l =
        if -(2 ^ 63) ≤ v ∧ v < 2 ^ 63 then .ok v rest
        else .fail (.other "SLEB128 overflow i64")) ∧
      (sleb128_decode_i32_list l =
        if -(2 ^ 31) ≤ v ∧ v < 2 ^ 31 then .ok v rest
        else .fail (.other "SLEB128 overflow i32")) ∧
      (sleb128_decode_i16_list l =
        if -(2 ^ 15) ≤ v ∧ v < 2 ^ 15 then .ok v rest
        else .fail (.other "SLEB128 overflow i16")) ∧
      (sleb128_decode_isize_list l =
        if -(2 ^ 63) ≤ v ∧ v < 2 ^ 63 then .ok v rest
        else .fail (.other "SLEB128 overflow isize"))) := by
  constructor
  · intro v rest h
    refine ⟨?_, ?_, ?_, ?_⟩ <;>
      · simp only [leb128_decode_u64_list, leb128_decode_u32_list,
          leb128_decode_u16_list, leb128_decode_usize_list, h]
        split <;> split <;> first | rfl | omega
  · intro v rest h
    refine ⟨?_, ?_, ?_, ?_⟩ <;>
      · simp only [sleb128_decode_i64_list, sleb128_decode_i32_list,
          sleb128_decode_i16_list, sleb128_decode_isize_list, h]
        split <;> split <;> first | rfl | (exfalso; omega)

/-- Witness for C5 at the two-byte varint of 300. -/
theorem C5_narrowing_never_truncates_witness :
    leb128_decode_u64_list [0xAC, 0x02] = .ok 300 [] ∧
    leb128_decode_u16_list [0xAC, 0x02] = .ok 300 [] ∧
    sleb128_decode_i16_list [0xAC, 0x02] = .ok 300 [] := by
  have hu := (C5_narrowing_never_truncates [0xAC, 0x02]).1 300 [] (by decide)
  have hs := (C5_narrowing_never_truncates [0xAC, 0x02]).2 300 [] (by decide)
  refine ⟨?_, ?_, ?_⟩
  · rw [hu.1]
    norm_num
  · rw [hu.2.2.1]
    norm_num
  · rw [hs.2.2.1]
    norm_num

/-- C6: decoding a two-variant sum type (`IpAddr`, `SocketAddr`)
dispatches a decoded discriminant of 0 to the V4 payload decoder and 1
to the V6 payload decoder, and any other value fails with a structured
invalid-discriminant error carrying the found value, the type name and
the allowed range `0..=1` — it never falls back to a default variant. -/
theorem C6_discriminant_dispatch (cfg : IntEncoding) (s : DecState) :
    (∀ s₁, u32_decode cfg s = .ok 0 s₁ →
      ipAddr_decode cfg s = mapDRes IpAddr.v4 (ipv4_decode s₁) ∧
      socketAddr_decode cfg s = mapDRes SocketAddr.v4 (socketAddrV4_decode cfg s₁)) ∧
    (∀ s₁, u32_decode cfg s = .ok 1 s₁ →
      ipAddr_decode cfg s = mapDRes IpAddr.v6 (ipv6_decode s₁) ∧
      socketAddr_decode cfg s = mapDRes SocketAddr.v6 (socketAddrV6_decode cfg s₁)) ∧
    (∀ found s₁, u32_decode cfg s = .ok found s₁ → 2 ≤ found →
      ipAddr_decode cfg s = .err (.unexpectedVariant "IpAddr" 0 1 found) s₁ ∧
      socketAddr_decode cfg s = .err (.unexpectedVariant "SocketAddr" 0 1 found) s₁) := by
  refine ⟨fun s₁ h => ?_, fun s₁ h => ?_, fun found s₁ h hge => ?_⟩
  · refine ⟨?_, ?_⟩
    · simp only [ipAddr_decode, dbind, h]
      cases hx : ipv4_decode s₁ <;> rfl
    · simp only [socketAddr_decode, dbind, h]
      cases hx : socketAddrV4_decode cfg s₁ <;> rfl
  · refine ⟨?_, ?_⟩
    · simp only [ipAddr_decode, dbind, h]
      cases hx : ipv6_decode s₁ <;> rfl
    · simp only [socketAddr_decode, dbind, h]
      cases hx : socketAddrV6_decode cfg s₁ <;> rfl
  · obtain ⟨m, rfl⟩ : ∃ m, found = m + 2 := ⟨found - 2, by omega⟩
    exact ⟨by simp only [ipAddr_decode, dbind, h], by simp only [socketAddr_decode, dbind, h]⟩

/-- Witness for C6 with an encoded tag of 2 (spec scenario e): the
decode fails with found=2, allowed=0..=1. -/
theorem C6_discriminant_dispatch_witness :
    ipAddr_decode .varint (initState [2, 9, 9, 9, 9])
      = .err (.unexpectedVariant "IpAddr" 0 1 2) ⟨[9, 9, 9, 9], 0, []⟩ ∧
    socketAddr_decode .varint (initState [2, 9, 9, 9, 9])
      = .err (.unexpectedVariant "SocketAddr" 0 1 2) ⟨[9, 9, 9, 9], 0, []⟩ :=
  (C6_discriminant_dispatch .varint (initState [2, 9, 9, 9, 9])).2.2 2
    ⟨[9, 9, 9, 9], 0, []⟩ (by decide) (by decide)

/-- C8 counterexample: under the default (varint) configuration the
encoding of `IpAddr::V4(127.0.0.1)` is five bytes — a one-byte
discriminant followed by the four payload octets — so the encoded form
does not begin with a fixed 4-byte discriminant (a fixed-width 32-bit
discriminant plus the 4-byte payload would need eight bytes). -/
theorem C8_counterexample :
    ipAddr_encode .varint (.v4 ⟨[127, 0, 0, 1]⟩) = [0, 127, 0, 0, 1] ∧
    (ipAddr_encode .varint (.v4 ⟨[127, 0, 0, 1]⟩)).length
      ≠ 4 + (ipPayload (.v4 ⟨[127, 0, 0, 1]⟩)).length := by
  constructor
  · simp [ipAddr_encode, u32_encode, ipv4_encode, leb128_encode_u128]
  · simp [ipAddr_encode, u32_encode, ipv4_encode, ipPayload, leb128_encode_u128]

/-- C8 (amended): the encoded form of a sum-type value begins with a
u32 discriminant (0 for V4, 1 for V6) written through the configured
integer encoding, preceding the active variant's payload; it occupies a
fixed 4 bytes only under the fixed-width integer configuration, and a
single byte under the default varint configuration. -/
theorem C8_discriminant_layout (cfg : IntEncoding) (a : IpAddr) (sa : SocketAddr) :
    ipAddr_encode cfg a = u32_encode cfg (ipTag a) ++ ipPayload a ∧
    socketAddr_encode cfg sa = u32_encode cfg (socketTag sa) ++ socketPayload cfg sa ∧
    (u32_encode .fixed (ipTag a)).length = 4 ∧
    (u32_encode .fixed (socketTag sa)).length = 4 ∧
    (u32_encode .varint (ipTag a)).length = 1 ∧
    (u32_encode .varint (socketTag sa)).length = 1 := by
  refine ⟨?_, ?_, ?_, ?_, ?_, ?_⟩
  · cases a <;> rfl
  · cases sa <;> rfl
  · cases a <;> rfl
  · cases sa <;> rfl
  · cases a <;> simp [ipTag, u32_encode, leb128_encode_u128]
  · cases sa <;> simp [socketTag, u32_encode, leb128_encode_u128]

/-- C9 counterexample: a read of 2 bytes from a medium holding 1 byte
fails with `additional = 2` — the length of the whole request — not the
1 byte that was needed beyond what the medium could supply. -/
theorem C9_counterexample :
    ioReader_read [7] 2 = .error (.ioError 2) ∧
    2 - ([7] : List Nat).length = 1 ∧
    DecodeError.ioError 2 ≠ DecodeError.ioError (2 - ([7] : List Nat).length) :=
  ⟨rfl, rfl, by decide⟩

/-- C9 (amended): a failed read through the std reader adapter reports
the byte count of the whole failed request (not merely the shortfall);
a failed write reports the byte offset already committed, and the
writer's byte count increases only on a fully successful all-or-nothing
write. -/
theorem C9_io_error_reporting :
    (∀ (medium : List Nat) (n : Nat), medium.length < n →
      ioReader_read medium n = .error (.ioError n)) ∧
    (∀ (cap : Nat) (w : IoWriter) (bytes : List Nat),
      w.bytes_written = w.written.length →
      (cap < w.written.length + bytes.length →
        ioWriter_write cap w bytes = .error (.ioError w.written.length)) ∧
      (∀ w', ioWriter_write cap w bytes = .ok w' →
        w'.bytes_written = w.bytes_written + bytes.length ∧
        w'.written = w.written ++ bytes)) := by
  constructor
  · intro medium n h
    simp only [ioReader_read, readExact]
    rw [if_neg (by omega)]
  · intro cap w bytes hinv
    constructor
    · intro hover
      simp only [ioWriter_write, writeAll]
      rw [if_neg (by omega), hinv]
    · intro w' h
      simp only [ioWriter_write, writeAll] at h
      by_cases hc : w.written.length + bytes.length ≤ cap
      · rw [if_pos hc] at h
        cases h
        exact ⟨rfl, rfl⟩
      · rw [if_neg hc] at h
        cases h

/-- Witness for C9: a failing read and both a failing and a succeeding
write at concrete inputs. -/
theorem C9_io_error_reporting_witness :
    ioReader_read [7] 2 = .error (.ioError 2) ∧
    ioWriter_write 1 ⟨[5], 1⟩ [1, 2] = .error (.ioError 1) ∧
    ioWriter_write 3 ⟨[5], 1⟩ [1, 2] = .ok ⟨[5, 1, 2], 3⟩ := by
  refine ⟨C9_io_error_reporting.1 [7] 2 (by decide), ?_, ?_⟩
  · exact (C9_io_error_reporting.2 1 ⟨[5], 1⟩ [1, 2] (by decide)).1 (by decide)
  · have h := (C9_io_error_reporting.2 3 ⟨[5], 1⟩ [1, 2] (by decide)).2 ⟨[5, 1, 2], 3⟩ rfl
    rfl

/-- C10: every successful `SocketAddrV6` decode carries `flowinfo = 0`
and `scope_id = 0` (the encoder writes only the 16 ip octets and the
port), so a value with a nonzero flowinfo or scope_id decodes from its
own encoding to an unequal value. -/
theorem C10_socketaddrv6_lossy_fields :
    (∀ (cfg : IntEncoding) (s : DecState) a s₁,
      socketAddrV6_decode cfg s = .ok a s₁ → a.flowinfo = 0 ∧ a.scope_id = 0) ∧
    (∀ a : SocketAddrV6, a.ip.octets.length = 16 → a.port < 2 ^ 16 →
      a.flowinfo ≠ 0 ∨ a.scope_id ≠ 0 →
      socketAddrV6_decode .varint (initState (socketAddrV6_encode .varint a))
        = .ok ⟨a.ip, a.port, 0, 0⟩ ⟨[], 0, []⟩ ∧
      (⟨a.ip, a.port, 0, 0⟩ : SocketAddrV6) ≠ a) := by
  constructor
  · intro cfg s a s₁ h
    simp only [socketAddrV6_decode, dbind] at h
    rcases hip : ipv6_decode s with ⟨ip, s₂⟩ | ⟨e, s₂⟩ | ⟨m, s₂⟩ <;>
      rw [hip] at h <;> dsimp only at h
    · rcases hport : u16_decode cfg s₂ with ⟨port, s₃⟩ | ⟨e, s₃⟩ | ⟨m, s₃⟩ <;>
        rw [hport] at h <;> dsimp only at h <;> cases h
      exact ⟨rfl, rfl⟩
    · cases h
    · cases h
  · intro a hip hport hnz
    constructor
    · have hdec := socketAddrV6_roundtrip_zero a hip hport
      exact hdec
    · intro heq
      have hf : (⟨a.ip, a.port, 0, 0⟩ : SocketAddrV6).flowinfo = a.flowinfo := by rw [heq]
      have hs2 : (⟨a.ip, a.port, 0, 0⟩ : SocketAddrV6).scope_id = a.scope_id := by rw [heq]
      simp only at hf hs2
      rcases hnz with hnz | hnz <;> omega

/-- C1 counterexample: `SocketAddrV6` is a supported serializable type
(it implements both Encode and Decode), yet decoding the encoding of a
`SocketAddrV6` with `flowinfo = 1` yields an unequal value, because the
encoder writes only the ip octets and the port. -/
theorem C1_counterexample :
    socketAddrV6_decode .varint
        (initState (socketAddrV6_encode .varint ⟨⟨List.replicate 16 0⟩, 80, 1, 0⟩))
      = .ok ⟨⟨List.replicate 16 0⟩, 80, 0, 0⟩ ⟨[], 0, []⟩ ∧
    (⟨⟨List.replicate 16 0⟩, 80, 0, 0⟩ : SocketAddrV6)
      ≠ ⟨⟨List.replicate 16 0⟩, 80, 1, 0⟩ :=
  ⟨socketAddrV6_roundtrip_zero ⟨⟨List.replicate 16 0⟩, 80, 1, 0⟩ (by decide) (by decide),
   by decide⟩

/-- C1 (amended): decoding the encoding reproduces an equal value for
the supported types — for a `HashMap` (instantiated at `u8` keys and
values) the decoded map equals the original as a finite map, regardless
of the iteration order used while encoding; for `SocketAddrV6` the round
trip is exact precisely on values whose flowinfo and scope_id are zero
(those fields are not encoded and decode as zero). -/
theorem C1_roundtrip :
    (∀ L : List (Nat × Nat), (∀ p ∈ L, p.1 < 256 ∧ p.2 < 256) →
      (L.map Prod.fst).Nodup → L.length < 2 ^ 64 →
      ∃ M s', hashMap_decode 2 u8_decode u8_decode
          (initState (hashMap_encode u8_encode u8_encode L)) = .ok M s' ∧
        s'.input = [] ∧ ∀ k, lookupPair k M = lookupPair k L) ∧
    (∀ L1 L2 : List (Nat × Nat), L1.Perm L2 → (∀ p ∈ L1, p.1 < 256 ∧ p.2 < 256) →
      (L1.map Prod.fst).Nodup → L1.length < 2 ^ 64 →
      ∀ M1 M2 s1 s2,
        hashMap_decode 2 u8_decode u8_decode
          (initState (hashMap_encode u8_encode u8_encode L1)) = .ok M1 s1 →
        hashMap_decode 2 u8_decode u8_decode
          (initState (hashMap_encode u8_encode u8_encode L2)) = .ok M2 s2 →
        ∀ k, lookupPair k M1 = lookupPair k M2) ∧
    (∀ a : SocketAddrV6, a.ip.octets.length = 16 → a.port < 2 ^ 16 →
      a.flowinfo = 0 → a.scope_id = 0 →
      socketAddrV6_decode .varint (initState (socketAddrV6_encode .varint a))
        = .ok a ⟨[], 0, []⟩) := by
  refine ⟨?_, ?_, ?_⟩
  · intro L hb hnd hlen
    refine ⟨_, _, hashMapU8_roundtrip L hb hlen, rfl, ?_⟩
    intro k
    exact lookupPair_foldl_insert_nil k L hnd
  · intro L1 L2 hp hb hnd hlen M1 M2 s1 s2 h1 h2 k
    have hb2 : ∀ p ∈ L2, p.1 < 256 ∧ p.2 < 256 := fun p hm => hb p (hp.mem_iff.mpr hm)
    have hnd2 : (L2.map Prod.fst).Nodup := ((hp.map Prod.fst).nodup_iff).mp hnd
    have hlen2 : L2.length < 2 ^ 64 := by rw [← hp.length_eq]; exact hlen
    have e1 := hashMapU8_roundtrip L1 hb hlen
    have e2 := hashMapU8_roundtrip L2 hb2 hlen2
    rw [e1] at h1
    rw [e2] at h2
    cases h1
    cases h2
    rw [lookupPair_foldl_insert_nil k L1 hnd, lookupPair_foldl_insert_nil k L2 hnd2]
    exact lookupPair_perm hp hnd k
  · intro a hip hport hf hs
    have h := socketAddrV6_roundtrip_zero a hip hport
    rw [show (⟨a.ip, a.port, 0, 0⟩ : SocketAddrV6) = a from by
      cases a
      simp only at hf hs
      subst hf
      subst hs
      rfl] at h
    exact h

/-- Witness for C1 at the spec scenario: the two-entry mapping
\{1: 10, 2: 20\} encoded in both iteration orders decodes to the same
mapping, and a zero-flowinfo socket address round-trips. -/
theorem C1_roundtrip_witness :
    (∃ M s', hashMap_decode 2 u8_decode u8_decode
        (initState (hashMap_encode u8_encode u8_encode [(1, 10), (2, 20)])) = .ok M s' ∧
      s'.input = [] ∧ ∀ k, lookupPair k M = lookupPair k [(1, 10), (2, 20)]) ∧
    socketAddrV6_decode .varint
        (initState (socketAddrV6_encode .varint ⟨⟨List.replicate 16 0⟩, 80, 0, 0⟩))
      = .ok ⟨⟨List.replicate 16 0⟩, 80, 0, 0⟩ ⟨[], 0, []⟩ :=
  ⟨C1_roundtrip.1 [(1, 10), (2, 20)] (by decide) (by decide) (by decide),
   C1_roundtrip.2.2 ⟨⟨List.replicate 16 0⟩, 80, 0, 0⟩
     (by decide) (by decide) rfl rfl⟩

/-- C2: when the declared element count times the conservative
per-element byte size exceeds the remaining decodable input, the
container decode fails immediately with the limit-exceeded error and no
allocation is recorded (the final trace equals the starting trace: the
budget claim precedes the with-capacity construction, so failure leaves
no `alloc` event). -/
theorem C2_limit_exceeded_before_alloc (κ ν α : Type)
    (ik : DecidableEq κ) (ia : DecidableEq α) (szm szs : Nat)
    (dk : Dec κ) (dv : Dec ν) (d : Dec α) (s : DecState) :
    (∀ len s₁, decode_slice_len s = .ok len s₁ →
      s₁.input.length < s₁.reserved + len * szm →
      @hashMap_decode κ ν ik szm dk dv s = .err .limitExceeded s₁ ∧
      s₁.trace = s.trace) ∧
    (∀ len s₁, decode_slice_len s = .ok len s₁ →
      s₁.input.length < s₁.reserved + len * szs →
      @hashSet_decode α ia szs d s = .err .limitExceeded s₁ ∧
      s₁.trace = s.trace) := by
  constructor
  · intro len s₁ hl hover
    refine ⟨?_, (decode_slice_len_state s len s₁ hl).2⟩
    simp only [hashMap_decode, dbind]
    rw [hl]
    dsimp only
    simp only [claimBytes]
    rw [if_pos hover]
  · intro len s₁ hl hover
    refine ⟨?_, (decode_slice_len_state s len s₁ hl).2⟩
    simp only [hashSet_decode, dbind]
    rw [hl]
    dsimp only
    simp only [claimBytes]
    rw [if_pos hover]

/-- Witness for C2 at the spec scenario: a declared count of 10,000,000
elements of 8 bytes each backed by 4 actual bytes fails with
limit-exceeded, leaving the trace empty (nothing allocated). -/
theorem C2_limit_exceeded_before_alloc_witness :
    hashSet_decode 8 (liftVarint leb128_decode_u64_list)
        (initState [0x80, 0xAD, 0xE2, 0x04, 1, 2, 3, 4])
      = .err .limitExceeded ⟨[1, 2, 3, 4], 0, []⟩ ∧
    (⟨[1, 2, 3, 4], 0, []⟩ : DecState).trace
      = (initState [0x80, 0xAD, 0xE2, 0x04, 1, 2, 3, 4]).trace :=
  (C2_limit_exceeded_before_alloc Nat Nat Nat inferInstance inferInstance 8 8
    (liftVarint leb128_decode_u64_list) (liftVarint leb128_decode_u64_list)
    (liftVarint leb128_decode_u64_list)
    (initState [0x80, 0xAD, 0xE2, 0x04, 1, 2, 3, 4])).2
    10000000 ⟨[1, 2, 3, 4], 0, []⟩ (by decide) (by decide)

/-- C7: a successful container decode whose claim of `len * size`
succeeded factors into the claim, the allocation, and then exactly `len`
rounds, each performing exactly one release of the per-element size
(the `unclaimState` step) immediately before that element's decode — so
no byte is counted both as speculative reservation and as real
consumption. -/
theorem C7_one_release_per_element (κ ν α : Type)
    (ik : DecidableEq κ) (ia : DecidableEq α) (szm szs : Nat)
    (dk : Dec κ) (dv : Dec ν) (d : Dec α) (s : DecState) :
    (∀ out s', @hashMap_decode κ ν ik szm dk dv s = .ok out s' →
      ∃ len s₁, decode_slice_len s = .ok len s₁ ∧
        s₁.reserved + len * szm ≤ s₁.input.length ∧
        MapRuns szm dk dv len []
          ⟨s₁.input, s₁.reserved + len * szm,
            s₁.trace ++ [.claim (len * szm), .alloc len]⟩ out s') ∧
    (∀ out s', @hashSet_decode α ia szs d s = .ok out s' →
      ∃ len s₁, decode_slice_len s = .ok len s₁ ∧
        s₁.reserved + len * szs ≤ s₁.input.length ∧
        SetRuns szs d len []
          ⟨s₁.input, s₁.reserved + len * szs,
            s₁.trace ++ [.claim (len * szs), .alloc len]⟩ out s') := by
  constructor
  · intro out s' h
    simp only [hashMap_decode, dbind] at h
    rcases hl : decode_slice_len s with ⟨len, s₁⟩ | ⟨e, s₁⟩ | ⟨m, s₁⟩ <;>
      rw [hl] at h <;> dsimp only at h
    · refine ⟨len, s₁, rfl, ?_, ?_⟩
      · by_contra hc
        simp only [claimBytes] at h
        rw [if_pos (by omega)] at h
        dsimp only at h
        cases h
      · simp only [claimBytes] at h
        rw [if_neg (by
          intro hc
          rw [if_pos hc] at h
          cases h)] at h
        dsimp only [allocCapacity] at h
        have hr := decodeLoopMap_runs szm dk dv len _ _ _ _ h
        have hsh : (s₁.trace ++ [Event.claim (len * szm)]) ++ [Event.alloc len]
            = s₁.trace ++ [Event.claim (len * szm), Event.alloc len] := by
          simp
        rw [hsh] at hr
        exact hr
    · cases h
    · cases h
  · intro out s' h
    simp only [hashSet_decode, dbind] at h
    rcases hl : decode_slice_len s with ⟨len, s₁⟩ | ⟨e, s₁⟩ | ⟨m, s₁⟩ <;>
      rw [hl] at h <;> dsimp only at h
    · refine ⟨len, s₁, rfl, ?_, ?_⟩
      · by_contra hc
        simp only [claimBytes] at h
        rw [if_pos (by omega)] at h
        dsimp only at h
        cases h
      · simp only [claimBytes] at h
        rw [if_neg (by
          intro hc
          rw [if_pos hc] at h
          cases h)] at h
        dsimp only [allocCapacity] at h
        have hr := decodeLoopSet_runs szs d len _ _ _ _ h
        have hsh : (s₁.trace ++ [Event.claim (len * szs)]) ++ [Event.alloc len]
            = s₁.trace ++ [Event.claim (len * szs), Event.alloc len] := by
          simp
        rw [hsh] at hr
        exact hr
    · cases h
    · cases h

/-- Witness for C7: decoding a two-element `u8` set produces the claim,
the allocation, and one release of the element size before each of the
two element decodes. -/
theorem C7_one_release_per_element_witness :
    ∃ len s₁, decode_slice_len (initState [2, 10, 20]) = .ok len s₁ ∧
      s₁.reserved + len * 1 ≤ s₁.input.length ∧
      SetRuns 1 u8_decode len []
        ⟨s₁.input, s₁.reserved + len * 1,
          s₁.trace ++ [.claim (len * 1), .alloc len]⟩ [10, 20]
        ⟨[], 0, [.claim 2, .alloc 2, .unclaim 1, .unclaim 1]⟩ :=
  (C7_one_release_per_element Nat Nat Nat inferInstance inferInstance 1 1
    u8_decode u8_decode u8_decode (initState [2, 10, 20])).2
    [10, 20] ⟨[], 0, [.claim 2, .alloc 2, .unclaim 1, .unclaim 1]⟩ (by decide)

/-- Witness for C10 at a concrete address with nonzero flowinfo. -/
theorem C10_socketaddrv6_lossy_fields_witness :
    socketAddrV6_decode .varint
        (initState (socketAddrV6_encode .varint ⟨⟨List.replicate 16 0⟩, 80, 5, 0⟩))
      = .ok ⟨⟨List.replicate 16 0⟩, 80, 0, 0⟩ ⟨[], 0, []⟩ ∧
    (⟨⟨List.replicate 16 0⟩, 80, 0, 0⟩ : SocketAddrV6)
      ≠ ⟨⟨List.replicate 16 0⟩, 80, 5, 0⟩ :=
  C10_socketaddrv6_lossy_fields.2 ⟨⟨List.replicate 16 0⟩, 80, 5, 0⟩
    (by decide) (by decide) (Or.inl (by decide))

end Bincode
